import Mathlib

/-!
Verification of the UMI clustering engine of `bin/cluster_umis.py`.

The Python functions are shallowly embedded as Lean functions:

* Python dicts with string keys are modelled as association lists
  (`List (String × _)`) when their insertion order matters, and as total
  functions `String → _` when only lookup matters (a count dict is always
  queried at keys that are present, so totalising with a default changes
  nothing on the reachable inputs).
* Python sets are modelled as lists used only through membership; where the
  *iteration order* of a set is observable (the stable sort of a component in
  `group_directional`), the embedding takes an explicit reordering parameter
  (`shuffle`) ranging over permutations, which models the hash-dependent
  iteration order of CPython string sets.
* `editdistance.eval` is the textbook Levenshtein recursion, made structural
  with a fuel argument that is large enough to never run out: every recursive
  call of `levFuel` decreases the summed length of its two lists, so fuel
  `a.length + b.length` always reaches a base case first.
-/

/-- Fuelled Levenshtein distance on character lists.  The fuel only serves to
make the obvious three-way recursion structural; `a.length + b.length` is
always sufficient, as every recursive call decreases that sum. -/
def levFuel : Nat → List Char → List Char → Nat
  | _, [], ys => ys.length
  | _, xs, [] => xs.length
  | 0, _, _ => 0
  | fuel + 1, x :: xs, y :: ys =>
      if x = y then levFuel fuel xs ys
      else 1 + min (levFuel fuel xs (y :: ys))
                (min (levFuel fuel (x :: xs) ys) (levFuel fuel xs ys))

/-- Levenshtein edit distance, the model of `editdistance.eval`. -/
def lev (a b : List Char) : Nat := levFuel (a.length + b.length) a b

/-- Edit distance between two UMI strings. -/
def levS (a b : String) : Nat := lev a.toList b.toList

/-- Model of `itertools.combinations(umis, 2)`: all ordered pairs whose first
component occurs strictly before the second in the list. -/
def pairsOf {α : Type} : List α → List (α × α)
  | [] => []
  | x :: xs => (xs.map (fun y => (x, y))) ++ pairsOf xs

/-- Lookup in an association list modelling a Python dict (first matching
key wins; keys are unique in all reachable states).  A missing key yields
`[]`; in the source a missing key would raise, and every lookup performed by
the pipeline is at a present key. -/
def adjGet : List (String × List String) → String → List String
  | [], _ => []
  | e :: rest, u => if e.1 = u then e.2 else adjGet rest u

/-- Model of `adj_list[u].append(v)`: append `v` to the neighbour list of
every entry keyed `u` (keys are unique, so at most one entry changes). -/
def addNeighbor (adj : List (String × List String)) (u v : String) :
    List (String × List String) :=
  adj.map (fun e => if e.1 = u then (e.1, e.2 ++ [v]) else e)

/-- Body of the pair loop of `get_adj_list_directional` (lines 175-180 of
`cluster_umis.py`): if the two UMIs are within the edit-distance threshold,
admit each direction whose count rule `counts[a] >= counts[b]*2 - 1` holds.
Counts are cast to `Int` to mirror Python integer arithmetic. -/
def edgeStep (counts : String → Nat) (threshold : Nat)
    (adj : List (String × List String)) (p : String × String) :
    List (String × List String) :=
  if levS p.1 p.2 ≤ threshold then
    let adj1 := if (counts p.1 : Int) ≥ (counts p.2 : Int) * 2 - 1 then
        addNeighbor adj p.1 p.2 else adj
    if (counts p.2 : Int) ≥ (counts p.1 : Int) * 2 - 1 then
      addNeighbor adj1 p.2 p.1 else adj1
  else adj

/-- Model of `get_adj_list_directional(umis, counts, threshold)`: start from
`{umi: [] for umi in umis}` and fold the pair loop over
`itertools.combinations(umis, 2)`. -/
def get_adj_list_directional (umis : List String) (counts : String → Nat)
    (threshold : Nat) : List (String × List String) :=
  (pairsOf umis).foldl (edgeStep counts threshold) (umis.map (fun u => (u, [])))

/-- Condition under which the loop pair `p` of `get_adj_list_directional`
contributes the directed edge `u → v`. -/
def pairAdds (counts : String → Nat) (t : Nat) (p : String × String)
    (u v : String) : Prop :=
  levS p.1 p.2 ≤ t ∧
    ((u = p.1 ∧ v = p.2 ∧ (counts p.1 : Int) ≥ (counts p.2 : Int) * 2 - 1) ∨
     (u = p.2 ∧ v = p.1 ∧ (counts p.2 : Int) ≥ (counts p.1 : Int) * 2 - 1))

instance (counts : String → Nat) (t : Nat) (p : String × String) (u v : String) :
    Decidable (pairAdds counts t p u v) := by
  unfold pairAdds
  infer_instance

/-- Shared shape of the two `if node not in seen: seen.add(node); out.append(node)`
loops of the source (`breadth_first_search` lines 152-155 and
`group_directional` lines 231-234): fold one element into a (seen, out) pair. -/
def dedupStep (p : List String × List String) (v : String) :
    List String × List String :=
  if v ∈ p.1 then p else (p.1 ++ [v], p.2 ++ [v])

/-- The sequence of elements of `l` that such a loop actually adds, in order:
first occurrences of elements not already seen. -/
def newNodes (seen : List String) : List String → List String
  | [] => []
  | n :: ns => if n ∈ seen then newNodes seen ns
               else n :: newNodes (seen ++ [n]) ns

/-- Model of the `while len(queue) > 0` loop of `breadth_first_search`.
The Python queue and searched are sets; `queue.pop()` removes an arbitrary
element, which the model fixes to the head — the searched set produced is the
same for every pop order, namely the closure of the start under the adjacency
lookups (shown by the lemmas below).  The fuel bounds the number of pops; one
unit per node is enough because each node is enqueued at most once. -/
def breadth_first_search_aux (adj : String → List String) :
    Nat → List String → List String → List String
  | 0, _, searched => searched
  | _ + 1, [], searched => searched
  | fuel + 1, n :: queue, searched =>
      let p := (adj n).foldl dedupStep (searched, queue)
      breadth_first_search_aux adj fuel p.2 p.1

/-- Model of `breadth_first_search(node, adj_list)`. -/
def breadth_first_search (node : String) (adj : String → List String)
    (fuel : Nat) : List String :=
  breadth_first_search_aux adj fuel [node] [node]

/-- One directed adjacency-lookup step: `b` occurs in the stored neighbour
list of `a`. -/
def adjStepRel (adj : String → List String) (a b : String) : Prop := b ∈ adj a

/-- Model of `sorted(xs, key=lambda x: counts[x], reverse=True)`: a stable
sort placing higher counts first (Python sorts are stable; `orderedInsert`
with this relation keeps earlier elements before later ones on ties). -/
def sortedByCountDesc (counts : String → Nat) (l : List String) : List String :=
  List.insertionSort (fun x y => counts y ≤ counts x) l

/-- Model of the component loop of `get_connected_components_adjacency`
(lines 201-210): iterate over the nodes in count-descending order, run a
breadth-first search from each node not already found, and append the
searched set as one component.  `found.update(component)` is only used for
membership tests, so it is modelled by list append. -/
def cccGo (adj : String → List String) (fuel : Nat) (found : List String) :
    List String → List (List String)
  | [] => []
  | n :: rest =>
      if n ∈ found then cccGo adj fuel found rest
      else
        breadth_first_search n adj fuel ::
          cccGo adj fuel (found ++ breadth_first_search n adj fuel) rest

/-- Model of `get_connected_components_adjacency(umis, graph, counts)`: the
graph dict is passed as its key list `umis` (insertion order, identical to
the dict key order in the source) plus its lookup function `adj`; the BFS
fuel is the number of keys, which is always sufficient. -/
def get_connected_components_adjacency (umis : List String)
    (adj : String → List String) (counts : String → Nat) : List (List String) :=
  cccGo adj umis.length [] (sortedByCountDesc counts umis)

/-- Every component of the list has a distinguished member not satisfying
`F`, where `F` accumulates the members of all earlier components. -/
inductive FreshChain : (String → Prop) → List (List String) → Prop
  | nil (F : String → Prop) : FreshChain F []
  | cons (F : String → Prop) (c : List String) (cs : List (List String)) :
      (∃ s, s ∈ c ∧ ¬ F s) →
      FreshChain (fun x => F x ∨ x ∈ c) cs → FreshChain F (c :: cs)

/-- Model of the cluster loop of `group_directional` (lines 221-237):
singleton components are emitted as they are (and marked observed); larger
components are sorted by count descending and the not-yet-observed members
are emitted in that order. -/
def gdGo (counts : String → Nat) (observed : List String) :
    List (List String) → List (List String)
  | [] => []
  | cl :: rest =>
      if cl.length = 1 then cl :: gdGo counts (observed ++ cl) rest
      else
        (((sortedByCountDesc counts cl).foldl dedupStep (observed, [])).2) ::
          gdGo counts (((sortedByCountDesc counts cl).foldl dedupStep (observed, [])).1) rest

/-- Model of `group_directional(clusters, adj_list, counts)` (the source's
`adj_list` parameter is unused by its body). -/
def group_directional (clusters : List (List String)) (counts : String → Nat) :
    List (List String) :=
  gdGo counts [] clusters

/-- Model of `cluster(counts_dict, threshold)`: the counts dict is passed as
its key list (insertion order) plus lookup function.  `shuffle` models the
iteration order of each component set handed to `group_directional` (the
source sorts Python sets, whose iteration order depends on the string hash
seed); it ranges over permutations. -/
def cluster (umis : List String) (counts : String → Nat)
    (shuffle : List String → List String) (threshold : Nat) : List (List String) :=
  group_directional
    ((get_connected_components_adjacency umis
        (adjGet (get_adj_list_directional umis counts threshold)) counts).map shuffle)
    counts

/-- Model of `create_map_to_correct_umi(cluster_list)`: the dict
comprehension binds every member of every cluster to that cluster's first
element, later bindings overwriting earlier ones.  `x.head?` is only reached
when the inner loop supplies a member `y ∈ x`, i.e. when `x` is non-empty —
exactly the situations in which the source evaluates `x[0]`. -/
def create_map_to_correct_umi (cluster_list : List (List String)) :
    String → Option String :=
  cluster_list.foldl
    (fun m x => x.foldl (fun m' y => fun z => if z = y then x.head? else m' z) m)
    (fun _ => none)

/-- The per-group correction pipeline, as run by `correct_umis`:
`create_map_to_correct_umi(cluster(counts_dict))`. -/
def correctionMap (umis : List String) (counts : String → Nat)
    (shuffle : List String → List String) (threshold : Nat) :
    String → Option String :=
  create_map_to_correct_umi (cluster umis counts shuffle threshold)

/-- Specification of the component list produced by
`get_connected_components_adjacency`: `F` accumulates the members of earlier
components; each component is exactly the set of UMIs reachable from its
start along the stored (directed) neighbour lists; the start lies in no
earlier component and has maximal count among the UMIs not absorbed by
earlier components. -/
inductive CompSpec (adj : String → List String) (counts : String → Nat)
    (allUmis : List String) : (String → Prop) → List (List String) → Prop
  | nil (F : String → Prop) : CompSpec adj counts allUmis F []
  | cons (F : String → Prop) (c : List String) (cs : List (List String))
      (s : String) :
      s ∈ c → ¬ F s →
      (∀ x, Relation.ReflTransGen (adjStepRel adj) s x ↔ x ∈ c) →
      (∀ u ∈ allUmis, ¬ F u → counts u ≤ counts s) →
      CompSpec adj counts allUmis (fun x => F x ∨ x ∈ c) cs →
      CompSpec adj counts allUmis F (c :: cs)

/-- Model of `create_region_name(read, args)` (lines 329-357): the alignment
midpoint picks a genomic interval of width `ref_interval`; the synthesised
gene name is `<chrom>_<interval_start>_<interval_end>`.  Python's
`int((start+end)/2)` on non-negative ints is the floor, and
`np.floor(m / i) * i` and `np.ceil(m / i) * i` are natural floor and ceiling
division times the interval (the interval is positive on reachable inputs;
the CLI default is 1000). -/
def create_region_name (chrom : String) (start_pos end_pos refInterval : Nat) :
    String :=
  let midpoint := (start_pos + end_pos) / 2
  let intervalStart := (midpoint / refInterval) * refInterval
  let intervalEnd := ((midpoint + refInterval - 1) / refInterval) * refInterval
  chrom ++ "_" ++ toString intervalStart ++ "_" ++ toString intervalEnd

/-- One row of the merged annotation frame iterated by `process_records`:
gene from `gene_assigns`, `ref_id` from `transcript_assigns`, corrected
barcode (CB), uncorrected UMI (UR) and the alignment coordinates from the
tag table. -/
structure AnnRow where
  read_id : String
  gene : String
  ref_id : String
  CB : String
  UR : String
  chrom : String
  start_pos : Nat
  end_pos : Nat
deriving DecidableEq

/-- One record appended by the loop of `process_records` (line 463-464). -/
structure OutRec where
  read_id : String
  gene : String
  transcript : String
  bc : String
  umi_uncorr : String
deriving DecidableEq

/-- Lookup of a key in an association-list table (a frame indexed by
read id with unique indices). -/
def tblGet {β : Type} : List (String × β) → String → Option β
  | [], _ => none
  | e :: rest, k => if e.1 = k then some e.2 else tblGet rest k

/-- Model of the two merges of `process_records` (lines 427-435) under unique
read ids: keep the `gene_assigns` rows (left order) whose read id is present
in both `transcript_assigns` and the tag table, joining the columns.  pandas
`DataFrame.merge` on the indices defaults to an *inner* join, so a read id
missing from `transcript_assigns` is dropped here. -/
def mergeFrames (gene_assigns : List (String × String))
    (transcript_assigns : List (String × String))
    (tags : List (String × (String × String × String × Nat × Nat))) :
    List AnnRow :=
  gene_assigns.filterMap (fun g =>
    match tblGet transcript_assigns g.1, tblGet tags g.1 with
    | some tr, some tg =>
        some ⟨g.1, g.2, tr, tg.1, tg.2.1, tg.2.2.1, tg.2.2.2.1, tg.2.2.2.2⟩
    | _, _ => none)

/-- Resolution of one merged row into the record the loop of
`process_records` (lines 440-464) appends: the transcript is the row's
`ref_id` (the `transcript_assigns is not None` test of the source is always
true, both branches of the `try` bind a frame, so the `'-'` branch is dead;
under a unique index the `.loc` lookup returns the row's own `ref_id`
column); a `"NA"` gene is replaced by the synthesised region name. -/
def resolveRow (refInterval : Nat) (row : AnnRow) : OutRec :=
  ⟨row.read_id,
    if row.gene = "NA" then
      create_region_name row.chrom row.start_pos row.end_pos refInterval
    else row.gene,
    row.ref_id, row.CB, row.UR⟩

/-- The (cell barcode, gene) key of the `cell_gene_counter`. -/
def recKey (r : OutRec) : String × String := (r.bc, r.gene)

/-- One iteration of the record loop: resolve the row, bump the
`cell_gene_counter` at its (barcode, gene) key, and append the record only
while the counter does not exceed the cap (line 462). -/
def processStep (refInterval maxReads : Nat)
    (acc : (String × String → Nat) × List OutRec) (row : AnnRow) :
    (String × String → Nat) × List OutRec :=
  let r := resolveRow refInterval row
  let cnt := fun k => if k = recKey r then acc.1 k + 1 else acc.1 k
  if cnt (recKey r) ≤ maxReads then (cnt, acc.2 ++ [r]) else (cnt, acc.2)

/-- Model of the record loop of `process_records` (lines 437-464). -/
def process_records_rows (rows : List AnnRow) (refInterval maxReads : Nat) :
    List OutRec :=
  (rows.foldl (processStep refInterval maxReads) (fun _ => 0, [])).2

/-- Minimal model of the frames manipulated at the end of `process_records`
(lines 483-508): the column-name list plus untyped rows.  Only column
presence decides whether those lines raise, which is what claim C8 is
about — the fallback frame has no rows at all. -/
structure Frame where
  cols : List String
  rows : List (List String)
deriving DecidableEq

/-- The fallback frame built when no batch results exist (lines 487-493).
It lacks a "transcript" column. -/
def emptyFallbackFrame : Frame :=
  ⟨["read_id", "gene", "bc", "umi_uncorr", "umi_corr"], []⟩

/-- The columns of every frame returned by `run_groupby`: the record frame
columns plus the added `umi_corr`. -/
def groupbyFrameCols : List String :=
  ["read_id", "gene", "transcript", "bc", "umi_uncorr", "umi_corr"]

/-- Model of `df.drop(cs, axis=1)`: drops the columns, raising (KeyError)
when one is absent. -/
def dropColumns (f : Frame) (cs : List String) : Except String Frame :=
  if cs.all (fun c => f.cols.contains c) then
    Except.ok ⟨f.cols.filter (fun c => !cs.contains c), f.rows⟩
  else Except.error "drop"

/-- Model of `df.set_index(c)`: moves the column into the index, raising
(KeyError) when it is absent. -/
def setIndex (f : Frame) (c : String) : Except String Frame :=
  if f.cols.contains c then
    Except.ok ⟨f.cols.filter (fun c' => !(c' == c)), f.rows⟩
  else Except.error "set_index"

/-- Model of `df.replace({np.nan: None}).to_dict()[c]`: the `to_dict()` dict
is keyed by the frame's columns, so the subscript raises KeyError exactly
when `c` is not a column. -/
def toDictColumn (f : Frame) (c : String) : Except String Unit :=
  if f.cols.contains c then Except.ok () else Except.error c

/-- Model of the tail of `process_records` (lines 483-508): take the batch
results (or the fallback frame when none were produced), drop `bc` and
`umi_uncorr`, set the index to `read_id`, then access the `umi_corr`, `gene`
and `transcript` columns of `to_dict()` in source order. -/
def processTail (results : List Frame) : Except String Unit := do
  let df := if results.length > 0 then
      ⟨groupbyFrameCols, (results.map Frame.rows).flatten⟩
    else emptyFallbackFrame
  let df ← dropColumns df ["bc", "umi_uncorr"]
  let df ← setIndex df "read_id"
  let _ ← toDictColumn df "umi_corr"
  let _ ← toDictColumn df "gene"
  let _ ← toDictColumn df "transcript"
  Except.ok ()

/-- Model of `chunks(lst, n)`: successive `n`-sized chunks of the list.  The
source raises for `n = 0` (`range` with step 0); the only call site uses
`n = 50`. -/
def chunks {α : Type} (l : List α) (n : Nat) : List (List α) :=
  match l, n with
  | [], _ => []
  | _ :: _, 0 => []
  | x :: xs, n + 1 => (x :: xs).take (n + 1) :: chunks (xs.drop n) (n + 1)
termination_by l.length
decreasing_by
  simp only [List.length_drop, List.length_cons]
  omega

def exUmis : List String := ["AAAAA", "AAAAT", "TTTTT"]

def exCounts : String → Nat := fun u =>
  if u = "AAAAA" then 100 else if u = "AAAAT" then 5 else
    if u = "TTTTT" then 50 else 0

def ovUmis : List String := ["AAA", "TTT", "ATT"]

def ovCounts : String → Nat := fun u =>
  if u = "AAA" then 5 else if u = "TTT" then 5 else if u = "ATT" then 1 else 0

def tieCounts : String → Nat := fun _ => 1

/-- Example rows for the read-cap witness: three reads of one
(barcode, gene) group. -/
def exRows : List AnnRow :=
  [⟨"r1", "g1", "t1", "BC1", "U1", "chr1", 0, 0⟩,
   ⟨"r2", "g1", "t2", "BC1", "U2", "chr1", 0, 0⟩,
   ⟨"r3", "g1", "t3", "BC1", "U3", "chr1", 0, 0⟩]

/-- Example tag table for the missing-transcript input. -/
def c7tags : List (String × (String × String × String × Nat × Nat)) :=
  [("r1", ("ACGT", "TTAA", "chr1", 100, 200))]

theorem levFuel_nil_left (f : Nat) (ys : List Char) : levFuel f [] ys = ys.length := by
  cases f <;> cases ys <;> rfl

theorem levFuel_nil_right (f : Nat) (xs : List Char) : levFuel f xs [] = xs.length := by
  cases f <;> cases xs <;> rfl

theorem levFuel_cons_cons (f : Nat) (x y : Char) (xs ys : List Char) :
    levFuel (f + 1) (x :: xs) (y :: ys) =
      if x = y then levFuel f xs ys
      else 1 + min (levFuel f xs (y :: ys))
                (min (levFuel f (x :: xs) ys) (levFuel f xs ys)) := rfl

/-- With the same fuel on both sides, the fuelled distance is symmetric. -/
theorem levFuel_symm (f : Nat) : ∀ xs ys : List Char, levFuel f xs ys = levFuel f ys xs := by
  induction f with
  | zero =>
      intro xs ys
      cases xs <;> cases ys <;> simp [levFuel_nil_left, levFuel_nil_right, levFuel]
  | succ f ih =>
      intro xs ys
      cases xs with
      | nil => simp [levFuel_nil_left, levFuel_nil_right]
      | cons x xs =>
        cases ys with
        | nil => simp [levFuel_nil_left, levFuel_nil_right]
        | cons y ys =>
          rw [levFuel_cons_cons, levFuel_cons_cons]
          by_cases h : x = y
          · simp [h, ih]
          · have h' : ¬ y = x := fun hyx => h hyx.symm
            rw [if_neg h, if_neg h', ih xs (y :: ys), ih (x :: xs) ys, ih xs ys]
            have : min (levFuel f (y :: ys) xs)
                (min (levFuel f ys (x :: xs)) (levFuel f ys xs)) =
                min (levFuel f ys (x :: xs))
                (min (levFuel f (y :: ys) xs) (levFuel f ys xs)) := by
              rw [← Nat.min_assoc, Nat.min_comm (levFuel f (y :: ys) xs), Nat.min_assoc]
            rw [this]

/-- Levenshtein distance is symmetric. -/
theorem lev_symm (a b : List Char) : lev a b = lev b a := by
  unfold lev
  rw [Nat.add_comm]
  exact levFuel_symm _ a b

theorem levS_symm (a b : String) : levS a b = levS b a := lev_symm _ _

theorem pairsOf_mem_of_mem {α : Type} {l : List α} {p : α × α}
    (h : p ∈ pairsOf l) : p.1 ∈ l ∧ p.2 ∈ l := by
  induction l with
  | nil => simp [pairsOf] at h
  | cons x xs ih =>
      simp only [pairsOf, List.mem_append, List.mem_map] at h
      rcases h with ⟨y, hy, hp⟩ | h
      · subst hp; exact ⟨List.mem_cons_self _ _, List.mem_cons_of_mem _ hy⟩
      · rcases ih h with ⟨h1, h2⟩
        exact ⟨List.mem_cons_of_mem _ h1, List.mem_cons_of_mem _ h2⟩

theorem pairsOf_ne {α : Type} {l : List α} (hnd : l.Nodup) {p : α × α}
    (h : p ∈ pairsOf l) : p.1 ≠ p.2 := by
  induction l with
  | nil => simp [pairsOf] at h
  | cons x xs ih =>
      simp only [pairsOf, List.mem_append, List.mem_map] at h
      rcases List.nodup_cons.mp hnd with ⟨hx, hxs⟩
      rcases h with ⟨y, hy, hp⟩ | h
      · subst hp
        intro hxy
        simp only at hxy
        exact hx (hxy.symm ▸ hy)
      · exact ih hxs h

theorem pairsOf_total {α : Type} {l : List α} {a b : α}
    (ha : a ∈ l) (hb : b ∈ l) (hab : a ≠ b) :
    (a, b) ∈ pairsOf l ∨ (b, a) ∈ pairsOf l := by
  induction l with
  | nil => simp at ha
  | cons x xs ih =>
      rcases List.mem_cons.mp ha with rfl | ha'
      · rcases List.mem_cons.mp hb with rfl | hb'
        · exact absurd rfl hab
        · exact Or.inl (by simp [pairsOf]; exact Or.inl hb')
      · rcases List.mem_cons.mp hb with rfl | hb'
        · exact Or.inr (by simp [pairsOf]; exact Or.inl ha')
        · rcases ih ha' hb' with h | h
          · exact Or.inl (by simp [pairsOf]; exact Or.inr h)
          · exact Or.inr (by simp [pairsOf]; exact Or.inr h)

theorem adjGet_init (umis : List String) (u : String) :
    adjGet (umis.map (fun w => (w, []))) u = [] := by
  induction umis with
  | nil => rfl
  | cons x xs ih => by_cases h : x = u <;> simp [adjGet, h, ih]

theorem init_keys (umis : List String) :
    (umis.map (fun w => (w, ([] : List String)))).map Prod.fst = umis := by
  induction umis with
  | nil => rfl
  | cons x xs ih => simp only [List.map_cons, ih]

theorem addNeighbor_keys (adj : List (String × List String)) (u w : String) :
    (addNeighbor adj u w).map Prod.fst = adj.map Prod.fst := by
  induction adj with
  | nil => rfl
  | cons e rest ih =>
      by_cases h : e.1 = u <;> simp only [addNeighbor, List.map_cons, if_pos, if_neg, h,
        if_true, if_false] at ih ⊢ <;> rw [ih]

theorem edgeStep_keys (counts : String → Nat) (t : Nat)
    (adj : List (String × List String)) (p : String × String) :
    (edgeStep counts t adj p).map Prod.fst = adj.map Prod.fst := by
  unfold edgeStep
  by_cases h1 : levS p.1 p.2 ≤ t
  · by_cases h2 : (counts p.1 : Int) ≥ (counts p.2 : Int) * 2 - 1 <;>
      by_cases h3 : (counts p.2 : Int) ≥ (counts p.1 : Int) * 2 - 1 <;>
      simp [h1, h2, h3, addNeighbor_keys]
  · simp [h1]

theorem foldl_edgeStep_keys (counts : String → Nat) (t : Nat)
    (ps : List (String × String)) (adj : List (String × List String)) :
    (ps.foldl (edgeStep counts t) adj).map Prod.fst = adj.map Prod.fst := by
  induction ps generalizing adj with
  | nil => rfl
  | cons p ps ih => rw [List.foldl_cons, ih, edgeStep_keys]

/-- The adjacency dict produced by `get_adj_list_directional` has exactly the
input UMIs as keys, in input order. -/
theorem get_adj_list_directional_keys (umis : List String) (counts : String → Nat)
    (t : Nat) : (get_adj_list_directional umis counts t).map Prod.fst = umis := by
  unfold get_adj_list_directional
  rw [foldl_edgeStep_keys, init_keys]

theorem adjGet_addNeighbor_other (adj : List (String × List String))
    (u w x : String) (h : x ≠ u) :
    adjGet (addNeighbor adj u w) x = adjGet adj x := by
  induction adj with
  | nil => rfl
  | cons e rest ih =>
      have hmain : addNeighbor (e :: rest) u w =
          (if e.1 = u then (e.1, e.2 ++ [w]) else e) :: addNeighbor rest u w := rfl
      rw [hmain]
      by_cases he : e.1 = u
      · have hx : ¬ e.1 = x := fun hh => h (hh.symm.trans he)
        rw [if_pos he]
        show (if e.1 = x then e.2 ++ [w] else adjGet (addNeighbor rest u w) x) =
          (if e.1 = x then e.2 else adjGet rest x)
        rw [if_neg hx, if_neg hx, ih]
      · rw [if_neg he]
        show (if e.1 = x then e.2 else adjGet (addNeighbor rest u w) x) =
          (if e.1 = x then e.2 else adjGet rest x)
        rw [ih]

theorem adjGet_addNeighbor_self (adj : List (String × List String))
    (u w : String) (h : u ∈ adj.map Prod.fst) :
    adjGet (addNeighbor adj u w) u = adjGet adj u ++ [w] := by
  induction adj with
  | nil => simp at h
  | cons e rest ih =>
      have hmain : addNeighbor (e :: rest) u w =
          (if e.1 = u then (e.1, e.2 ++ [w]) else e) :: addNeighbor rest u w := rfl
      rw [hmain]
      by_cases he : e.1 = u
      · rw [if_pos he]
        show (if e.1 = u then e.2 ++ [w] else adjGet (addNeighbor rest u w) u) =
          (if e.1 = u then e.2 else adjGet rest u) ++ [w]
        rw [if_pos he, if_pos he]
      · rw [if_neg he]
        show (if e.1 = u then e.2 else adjGet (addNeighbor rest u w) u) =
          (if e.1 = u then e.2 else adjGet rest u) ++ [w]
        rw [if_neg he, if_neg he]
        apply ih
        simp only [List.map_cons, List.mem_cons] at h
        rcases h with h | h
        · exact absurd h.symm he
        · exact h

/-- Effect of one pair iteration on one neighbour list. -/
theorem adjGet_edgeStep_eq (counts : String → Nat) (t : Nat)
    (adj : List (String × List String)) (p : String × String) (u : String)
    (hne : p.1 ≠ p.2) (h1 : p.1 ∈ adj.map Prod.fst) (h2 : p.2 ∈ adj.map Prod.fst) :
    adjGet (edgeStep counts t adj p) u =
      adjGet adj u ++
        (if levS p.1 p.2 ≤ t ∧ u = p.1 ∧ (counts p.1 : Int) ≥ (counts p.2 : Int) * 2 - 1
          then [p.2] else []) ++
        (if levS p.1 p.2 ≤ t ∧ u = p.2 ∧ (counts p.2 : Int) ≥ (counts p.1 : Int) * 2 - 1
          then [p.1] else []) := by
  unfold edgeStep
  by_cases hg : levS p.1 p.2 ≤ t
  · rw [if_pos hg]
    by_cases hr1 : (counts p.1 : Int) ≥ (counts p.2 : Int) * 2 - 1 <;>
      by_cases hr2 : (counts p.2 : Int) ≥ (counts p.1 : Int) * 2 - 1
    · simp only [hr1, hr2, if_true]
      by_cases hu1 : u = p.1
      · have hu2 : ¬ u = p.2 := fun hh => hne (hu1 ▸ hh)
        rw [adjGet_addNeighbor_other _ _ _ _ (fun hh => hu2 hh)]
        rw [hu1, adjGet_addNeighbor_self _ _ _ h1]
        simp [hg, hu1, hu2, hr1, hne]
      · by_cases hu2 : u = p.2
        · have hkey : u ∈ (addNeighbor adj p.1 p.2).map Prod.fst := by
            rw [addNeighbor_keys, hu2]; exact h2
          rw [hu2] at hkey ⊢
          rw [adjGet_addNeighbor_self _ _ _ hkey,
            adjGet_addNeighbor_other _ _ _ _ (Ne.symm hne)]
          simp [hg, hr2, hne, Ne.symm hne]
        · rw [adjGet_addNeighbor_other _ _ _ _ hu2,
            adjGet_addNeighbor_other _ _ _ _ hu1]
          simp [hu1, hu2]
    · simp only [hr1, hr2, if_true, if_false]
      by_cases hu1 : u = p.1
      · rw [hu1, adjGet_addNeighbor_self _ _ _ h1]
        simp [hg, hu1, hr1, hr2, hne, Ne.symm hne]
      · rw [adjGet_addNeighbor_other _ _ _ _ hu1]
        simp [hu1, hr2]
    · simp only [hr1, hr2, if_true, if_false]
      by_cases hu2 : u = p.2
      · rw [hu2, adjGet_addNeighbor_self _ _ _ h2]
        simp [hg, hr1, hr2, hne, Ne.symm hne]
      · rw [adjGet_addNeighbor_other _ _ _ _ hu2]
        simp [hu2, hr1]
    · simp [hr1, hr2]
  · simp [hg]

theorem adjGet_edgeStep_mem (counts : String → Nat) (t : Nat)
    (adj : List (String × List String)) (p : String × String) (u v : String)
    (hne : p.1 ≠ p.2) (h1 : p.1 ∈ adj.map Prod.fst) (h2 : p.2 ∈ adj.map Prod.fst) :
    (v ∈ adjGet (edgeStep counts t adj p) u ↔
      v ∈ adjGet adj u ∨ pairAdds counts t p u v) := by
  rw [adjGet_edgeStep_eq counts t adj p u hne h1 h2]
  unfold pairAdds
  simp only [List.mem_append]
  constructor
  · rintro ((hv | hv) | hv)
    · exact Or.inl hv
    · split_ifs at hv with hc
      · simp only [List.mem_singleton] at hv
        exact Or.inr ⟨hc.1, Or.inl ⟨hc.2.1, hv, hc.2.2⟩⟩
      · simp at hv
    · split_ifs at hv with hc
      · simp only [List.mem_singleton] at hv
        exact Or.inr ⟨hc.1, Or.inr ⟨hc.2.1, hv, hc.2.2⟩⟩
      · simp at hv
  · rintro (hv | ⟨hg, (⟨hu, hv, hr⟩ | ⟨hu, hv, hr⟩)⟩)
    · exact Or.inl (Or.inl hv)
    · subst hv
      exact Or.inl (Or.inr (by simp [hg, hu, hr]))
    · subst hv
      exact Or.inr (by simp [hg, hu, hr])

theorem adjGet_foldl_edgeStep (counts : String → Nat) (t : Nat)
    (ps : List (String × String)) (adj : List (String × List String)) (u v : String)
    (hps : ∀ p ∈ ps, p.1 ≠ p.2 ∧ p.1 ∈ adj.map Prod.fst ∧ p.2 ∈ adj.map Prod.fst) :
    (v ∈ adjGet (ps.foldl (edgeStep counts t) adj) u ↔
      v ∈ adjGet adj u ∨ ∃ p ∈ ps, pairAdds counts t p u v) := by
  induction ps generalizing adj with
  | nil => simp
  | cons p ps ih =>
      rw [List.foldl_cons]
      have hp := hps p (List.mem_cons_self _ _)
      have hps' : ∀ q ∈ ps, q.1 ≠ q.2 ∧ q.1 ∈ (edgeStep counts t adj p).map Prod.fst ∧
          q.2 ∈ (edgeStep counts t adj p).map Prod.fst := by
        intro q hq
        have := hps q (List.mem_cons_of_mem _ hq)
        rw [edgeStep_keys]
        exact this
      rw [ih _ hps', adjGet_edgeStep_mem counts t adj p u v hp.1 hp.2.1 hp.2.2]
      constructor
      · rintro ((hv | hpa) | ⟨q, hq, hqa⟩)
        · exact Or.inl hv
        · exact Or.inr ⟨p, List.mem_cons_self _ _, hpa⟩
        · exact Or.inr ⟨q, List.mem_cons_of_mem _ hq, hqa⟩
      · rintro (hv | ⟨q, hq, hqa⟩)
        · exact Or.inl (Or.inl hv)
        · rcases List.mem_cons.mp hq with rfl | hq'
          · exact Or.inl (Or.inr hqa)
          · exact Or.inr ⟨q, hq', hqa⟩

theorem pairs_of_umis_wf (umis : List String) (hnd : umis.Nodup) :
    ∀ p ∈ pairsOf umis, p.1 ≠ p.2 ∧
      p.1 ∈ (umis.map (fun w => (w, ([] : List String)))).map Prod.fst ∧
      p.2 ∈ (umis.map (fun w => (w, ([] : List String)))).map Prod.fst := by
  intro p hp
  have hmem := pairsOf_mem_of_mem hp
  rw [init_keys]
  exact ⟨pairsOf_ne hnd hp, hmem.1, hmem.2⟩

/-- Full characterisation of the directed adjacency built by
`get_adj_list_directional` on a duplicate-free UMI list. -/
theorem adjGet_directional_iff (umis : List String) (counts : String → Nat)
    (t : Nat) (hnd : umis.Nodup) (u v : String) (hu : u ∈ umis) (hv : v ∈ umis)
    (huv : u ≠ v) :
    v ∈ adjGet (get_adj_list_directional umis counts t) u ↔
      levS u v ≤ t ∧ (counts u : Int) ≥ (counts v : Int) * 2 - 1 := by
  unfold get_adj_list_directional
  rw [adjGet_foldl_edgeStep counts t _ _ u v (pairs_of_umis_wf umis hnd), adjGet_init]
  simp only [List.not_mem_nil, false_or]
  constructor
  · rintro ⟨p, hp, hlev, (⟨h1, h2, hr⟩ | ⟨h1, h2, hr⟩)⟩
    · subst h1; subst h2; exact ⟨hlev, hr⟩
    · subst h1; subst h2
      rw [levS_symm] at hlev
      exact ⟨hlev, hr⟩
  · rintro ⟨hlev, hr⟩
    rcases pairsOf_total hu hv huv with hp | hp
    · exact ⟨(u, v), hp, hlev, Or.inl ⟨rfl, rfl, hr⟩⟩
    · refine ⟨(v, u), hp, ?_, Or.inr ⟨rfl, rfl, hr⟩⟩
      rw [levS_symm v u]
      exact hlev

/-- Neighbour lists only contain other UMIs of the input list. -/
theorem adjGet_directional_subset (umis : List String) (counts : String → Nat)
    (t : Nat) (hnd : umis.Nodup) (u v : String)
    (hv : v ∈ adjGet (get_adj_list_directional umis counts t) u) :
    v ∈ umis ∧ v ≠ u := by
  unfold get_adj_list_directional at hv
  rw [adjGet_foldl_edgeStep counts t _ _ u v (pairs_of_umis_wf umis hnd), adjGet_init] at hv
  simp only [List.not_mem_nil, false_or] at hv
  rcases hv with ⟨p, hp, _, (⟨h1, h2, _⟩ | ⟨h1, h2, _⟩)⟩
  · have hmem := pairsOf_mem_of_mem hp
    have hne := pairsOf_ne hnd hp
    subst h1; subst h2
    exact ⟨hmem.2, fun hh => hne hh.symm⟩
  · have hmem := pairsOf_mem_of_mem hp
    have hne := pairsOf_ne hnd hp
    subst h1; subst h2
    exact ⟨hmem.1, fun hh => hne hh⟩

theorem foldl_dedupStep (l : List String) (seen out : List String) :
    l.foldl dedupStep (seen, out) =
      (seen ++ newNodes seen l, out ++ newNodes seen l) := by
  induction l generalizing seen out with
  | nil => simp [newNodes]
  | cons n ns ih =>
      by_cases h : n ∈ seen
      · simp [dedupStep, newNodes, h, ih]
      · simp [dedupStep, newNodes, h, ih, List.append_assoc]

theorem newNodes_mem (l : List String) : ∀ (seen : List String) (x : String),
    x ∈ newNodes seen l ↔ x ∈ l ∧ x ∉ seen := by
  induction l with
  | nil => intro seen x; simp [newNodes]
  | cons n ns ih =>
      intro seen x
      by_cases h : n ∈ seen
      · simp only [newNodes, h, if_true, ih, List.mem_cons]
        constructor
        · rintro ⟨hx, hs⟩; exact ⟨Or.inr hx, hs⟩
        · rintro ⟨(rfl | hx), hs⟩
          · exact absurd h hs
          · exact ⟨hx, hs⟩
      · simp only [newNodes, h, if_false, List.mem_cons, ih, List.mem_append,
          List.mem_singleton]
        constructor
        · rintro (rfl | ⟨hx, hs⟩)
          · exact ⟨Or.inl rfl, h⟩
          · exact ⟨Or.inr hx, fun hh => hs (Or.inl hh)⟩
        · rintro ⟨(rfl | hx), hs⟩
          · exact Or.inl rfl
          · by_cases hxn : x = n
            · exact Or.inl hxn
            · exact Or.inr ⟨hx, fun hh => by
                rcases hh with hh | hh
                · exact hs hh
                · simp at hh
                  exact hxn hh⟩

theorem newNodes_nodup (l : List String) : ∀ seen : List String,
    (newNodes seen l).Nodup := by
  induction l with
  | nil => intro seen; simp [newNodes]
  | cons n ns ih =>
      intro seen
      by_cases h : n ∈ seen
      · simpa [newNodes, h] using ih seen
      · simp only [newNodes, h, if_false, List.nodup_cons]
        refine ⟨fun hh => ?_, ih _⟩
        rw [newNodes_mem] at hh
        exact hh.2 (by simp)

theorem newNodes_sublist (l : List String) : ∀ seen : List String,
    (newNodes seen l).Sublist l := by
  induction l with
  | nil => intro seen; simp [newNodes]
  | cons n ns ih =>
      intro seen
      by_cases h : n ∈ seen
      · simp only [newNodes, h, if_true]
        exact (ih seen).cons n
      · simp only [newNodes, h, if_false]
        exact (ih (seen ++ [n])).cons₂ n

theorem bfs_aux_mono (adj : String → List String) :
    ∀ (fuel : Nat) (queue searched : List String) (x : String),
      x ∈ searched → x ∈ breadth_first_search_aux adj fuel queue searched := by
  intro fuel
  induction fuel with
  | zero => intro queue searched x hx; exact hx
  | succ fuel ih =>
      intro queue searched x hx
      cases queue with
      | nil => exact hx
      | cons n queue =>
          show x ∈ breadth_first_search_aux adj fuel _ _
          rw [foldl_dedupStep]
          exact ih _ _ x (List.mem_append_left _ hx)

theorem bfs_start_mem (node : String) (adj : String → List String) (fuel : Nat) :
    node ∈ breadth_first_search node adj fuel :=
  bfs_aux_mono adj fuel [node] [node] node (by simp)

theorem bfs_aux_closure (adj : String → List String) (P : String → Prop)
    (hadj : ∀ n x, x ∈ adj n → P x) :
    ∀ (fuel : Nat) (queue searched : List String),
      (∀ x ∈ searched, P x) →
      ∀ x ∈ breadth_first_search_aux adj fuel queue searched, P x := by
  intro fuel
  induction fuel with
  | zero => intro queue searched hs x hx; exact hs x hx
  | succ fuel ih =>
      intro queue searched hs x hx
      cases queue with
      | nil => exact hs x hx
      | cons n queue =>
          rw [show breadth_first_search_aux adj (fuel + 1) (n :: queue) searched =
            breadth_first_search_aux adj fuel
              ((adj n).foldl dedupStep (searched, queue)).2
              ((adj n).foldl dedupStep (searched, queue)).1 from rfl,
            foldl_dedupStep] at hx
          refine ih _ _ ?_ x hx
          intro y hy
          rcases List.mem_append.mp hy with hy | hy
          · exact hs y hy
          · exact hadj n y ((newNodes_mem _ _ _).mp hy).1

theorem bfs_aux_nodup (adj : String → List String) :
    ∀ (fuel : Nat) (queue searched : List String),
      searched.Nodup →
      (breadth_first_search_aux adj fuel queue searched).Nodup := by
  intro fuel
  induction fuel with
  | zero => intro queue searched h; exact h
  | succ fuel ih =>
      intro queue searched h
      cases queue with
      | nil => exact h
      | cons n queue =>
          show (breadth_first_search_aux adj fuel _ _).Nodup
          rw [foldl_dedupStep]
          refine ih _ _ (List.Nodup.append h (newNodes_nodup _ _) ?_)
          intro a ha hb
          exact ((newNodes_mem _ _ _).mp hb).2 ha

theorem nodup_subset_length (l l' : List String) (h : l.Nodup) (hs : ∀ x ∈ l, x ∈ l') :
    l.length ≤ l'.length := by
  classical
  calc l.length = l.toFinset.card := (List.toFinset_card_of_nodup h).symm
    _ ≤ l'.toFinset.card := Finset.card_le_card (fun a ha => by
        rw [List.mem_toFinset] at ha ⊢; exact hs a ha)
    _ ≤ l'.length := l'.toFinset_card_le

theorem bfs_aux_reach (adj : String → List String) (s : String) :
    ∀ (fuel : Nat) (queue searched : List String),
      (∀ x ∈ searched, Relation.ReflTransGen (adjStepRel adj) s x) →
      (∀ x ∈ queue, x ∈ searched) →
      ∀ x ∈ breadth_first_search_aux adj fuel queue searched,
        Relation.ReflTransGen (adjStepRel adj) s x := by
  intro fuel
  induction fuel with
  | zero => intro queue searched hs _ x hx; exact hs x hx
  | succ fuel ih =>
      intro queue searched hs hq x hx
      cases queue with
      | nil => exact hs x hx
      | cons n queue =>
          rw [show breadth_first_search_aux adj (fuel + 1) (n :: queue) searched =
            breadth_first_search_aux adj fuel
              ((adj n).foldl dedupStep (searched, queue)).2
              ((adj n).foldl dedupStep (searched, queue)).1 from rfl,
            foldl_dedupStep] at hx
          have hreach_new : ∀ y ∈ newNodes searched (adj n),
              Relation.ReflTransGen (adjStepRel adj) s y := by
            intro y hy
            have h1 := (newNodes_mem _ _ _).mp hy
            exact Relation.ReflTransGen.tail (hs n (hq n (List.mem_cons_self _ _))) h1.1
          refine ih _ _ ?_ ?_ x hx
          · intro y hy
            rcases List.mem_append.mp hy with hy | hy
            · exact hs y hy
            · exact hreach_new y hy
          · intro y hy
            rcases List.mem_append.mp hy with hy | hy
            · exact List.mem_append_left _ (hq y (List.mem_cons_of_mem _ hy))
            · exact List.mem_append_right _ hy

theorem bfs_aux_closed (adj : String → List String) (allN : List String)
    (hadj : ∀ n x, x ∈ adj n → x ∈ allN) :
    ∀ (fuel : Nat) (queue searched : List String),
      (∀ x ∈ queue, x ∈ searched) →
      (∀ m ∈ searched, m ∈ queue ∨ ∀ v ∈ adj m, v ∈ searched) →
      searched.Nodup → (∀ x ∈ searched, x ∈ allN) →
      queue.length + (allN.length - searched.length) ≤ fuel →
      ∀ m ∈ breadth_first_search_aux adj fuel queue searched,
        ∀ v ∈ adj m, v ∈ breadth_first_search_aux adj fuel queue searched := by
  intro fuel
  induction fuel with
  | zero =>
      intro queue searched hq hcl hnd hsub hfuel m hm v hv
      have hq0 : queue = [] := by
        cases queue with
        | nil => rfl
        | cons a as => simp at hfuel
      subst hq0
      rcases hcl m hm with h | h
      · simp at h
      · exact h v hv
  | succ fuel ih =>
      intro queue searched hq hcl hnd hsub hfuel m hm v hv
      cases queue with
      | nil =>
          rcases hcl m hm with h | h
          · simp at h
          · exact h v hv
      | cons n queue =>
          rw [show breadth_first_search_aux adj (fuel + 1) (n :: queue) searched =
            breadth_first_search_aux adj fuel
              ((adj n).foldl dedupStep (searched, queue)).2
              ((adj n).foldl dedupStep (searched, queue)).1 from rfl,
            foldl_dedupStep] at hm ⊢
          set news := newNodes searched (adj n) with hnews
          have hdisj : ∀ a ∈ searched, a ∈ news → False := by
            intro a ha hb
            exact ((newNodes_mem _ _ _).mp hb).2 ha
          have hnd' : (searched ++ news).Nodup :=
            List.Nodup.append hnd (newNodes_nodup _ _) hdisj
          have hsub' : ∀ x ∈ searched ++ news, x ∈ allN := by
            intro x hx
            rcases List.mem_append.mp hx with hx | hx
            · exact hsub x hx
            · exact hadj n x ((newNodes_mem _ _ _).mp hx).1
          have hq' : ∀ x ∈ queue ++ news, x ∈ searched ++ news := by
            intro x hx
            rcases List.mem_append.mp hx with hx | hx
            · exact List.mem_append_left _ (hq x (List.mem_cons_of_mem _ hx))
            · exact List.mem_append_right _ hx
          have hcl' : ∀ m' ∈ searched ++ news,
              m' ∈ queue ++ news ∨ ∀ v' ∈ adj m', v' ∈ searched ++ news := by
            intro m' hm'
            rcases List.mem_append.mp hm' with hm' | hm'
            · rcases hcl m' hm' with h | h
              · rcases List.mem_cons.mp h with rfl | h
                · refine Or.inr ?_
                  intro v' hv'
                  by_cases hvs : v' ∈ searched
                  · exact List.mem_append_left _ hvs
                  · exact List.mem_append_right _ ((newNodes_mem _ _ _).mpr ⟨hv', hvs⟩)
                · exact Or.inl (List.mem_append_left _ h)
              · exact Or.inr fun v' hv' => List.mem_append_left _ (h v' hv')
            · exact Or.inl (List.mem_append_right _ hm')
          have hlen : (searched ++ news).length ≤ allN.length :=
            nodup_subset_length _ _ hnd' hsub'
          have hfuel' : (queue ++ news).length +
              (allN.length - (searched ++ news).length) ≤ fuel := by
            simp only [List.length_append] at hlen hfuel ⊢
            simp only [List.length_cons] at hfuel
            omega
          exact ih _ _ hq' hcl' hnd' hsub' hfuel' m hm v hv

/-- With fuel at least the number of UMIs, the searched set returned by
`breadth_first_search` is closed under adjacency lookups. -/
theorem bfs_closed (node : String) (adj : String → List String)
    (allN : List String) (fuel : Nat)
    (hadj : ∀ n x, x ∈ adj n → x ∈ allN) (hnode : node ∈ allN)
    (hfuel : allN.length ≤ fuel) :
    ∀ m ∈ breadth_first_search node adj fuel, ∀ v ∈ adj m,
      v ∈ breadth_first_search node adj fuel := by
  have h1 : (0 : Nat) < allN.length := List.length_pos.mpr
    (fun hh => by subst hh; simp at hnode)
  refine bfs_aux_closed adj allN hadj fuel [node] [node] ?_ ?_ ?_ ?_ ?_
  · intro x hx; exact hx
  · intro m hm; exact Or.inl hm
  · simp
  · intro x hx
    simp only [List.mem_singleton] at hx
    subst hx; exact hnode
  · simp only [List.length_singleton]
    omega

/-- Completeness of the search: everything reachable from the start along
directed adjacency lookups is found (fuel permitting). -/
theorem bfs_reach_mem (node : String) (adj : String → List String)
    (allN : List String) (fuel : Nat)
    (hadj : ∀ n x, x ∈ adj n → x ∈ allN) (hnode : node ∈ allN)
    (hfuel : allN.length ≤ fuel) (x : String)
    (hx : Relation.ReflTransGen (adjStepRel adj) node x) :
    x ∈ breadth_first_search node adj fuel := by
  induction hx with
  | refl => exact bfs_start_mem node adj fuel
  | tail hab hbc ih => exact bfs_closed node adj allN fuel hadj hnode hfuel _ ih _ hbc

/-- Soundness of the search: everything found is reachable from the start
along directed adjacency lookups. -/
theorem bfs_sound (node : String) (adj : String → List String) (fuel : Nat) :
    ∀ x ∈ breadth_first_search node adj fuel,
      Relation.ReflTransGen (adjStepRel adj) node x := by
  refine bfs_aux_reach adj node fuel [node] [node] ?_ ?_
  · intro x hx
    simp only [List.mem_singleton] at hx
    subst hx
    exact Relation.ReflTransGen.refl
  · intro x hx; exact hx

theorem freshChain_congr : ∀ {cs : List (List String)} {F G : String → Prop},
    (∀ x, F x ↔ G x) → FreshChain F cs → FreshChain G cs := by
  intro cs
  induction cs with
  | nil => intro F G h _; exact FreshChain.nil G
  | cons c cs ih =>
      intro F G h hf
      cases hf with
      | cons _ _ _ hex hrest =>
          refine FreshChain.cons G c cs ?_ (ih ?_ hrest)
          · rcases hex with ⟨s, hs, hns⟩
            exact ⟨s, hs, fun hg => hns ((h s).mpr hg)⟩
          · intro x; exact or_congr (h x) Iff.rfl

theorem cccGo_freshChain (adj : String → List String) (fuel : Nat) :
    ∀ (l found : List String),
      FreshChain (fun x => x ∈ found) (cccGo adj fuel found l) := by
  intro l
  induction l with
  | nil => intro found; exact FreshChain.nil _
  | cons n rest ih =>
      intro found
      by_cases h : n ∈ found
      · simp only [cccGo, h, if_true]
        exact ih found
      · simp only [cccGo, h, if_false]
        refine FreshChain.cons _ _ _ ⟨n, bfs_start_mem _ _ _, h⟩ ?_
        refine freshChain_congr ?_ (ih (found ++ breadth_first_search n adj fuel))
        intro x
        simp [List.mem_append]

theorem cccGo_cover (adj : String → List String) (fuel : Nat) :
    ∀ (l found : List String), ∀ u ∈ l,
      u ∈ found ∨ ∃ c ∈ cccGo adj fuel found l, u ∈ c := by
  intro l
  induction l with
  | nil => intro found u hu; simp at hu
  | cons n rest ih =>
      intro found u hu
      by_cases h : n ∈ found
      · simp only [cccGo, h, if_true]
        rcases List.mem_cons.mp hu with rfl | hu'
        · exact Or.inl h
        · exact ih found u hu'
      · simp only [cccGo, h, if_false]
        rcases List.mem_cons.mp hu with rfl | hu'
        · exact Or.inr ⟨_, List.mem_cons_self _ _, bfs_start_mem _ _ _⟩
        · rcases ih (found ++ breadth_first_search n adj fuel) u hu' with
            h2 | ⟨c, hc, huc⟩
          · rcases List.mem_append.mp h2 with h2 | h2
            · exact Or.inl h2
            · exact Or.inr ⟨_, List.mem_cons_self _ _, h2⟩
          · exact Or.inr ⟨c, List.mem_cons_of_mem _ hc, huc⟩

theorem cccGo_subset (adj : String → List String) (fuel : Nat)
    (allN : List String) (hadj : ∀ n x, x ∈ adj n → x ∈ allN) :
    ∀ (l found : List String), (∀ x ∈ l, x ∈ allN) →
      ∀ c ∈ cccGo adj fuel found l, ∀ x ∈ c, x ∈ allN := by
  intro l
  induction l with
  | nil => intro found hl c hc; simp [cccGo] at hc
  | cons n rest ih =>
      intro found hl c hc
      have hrest : ∀ x ∈ rest, x ∈ allN := fun x hx => hl x (List.mem_cons_of_mem _ hx)
      by_cases h : n ∈ found
      · simp only [cccGo, h, if_true] at hc
        exact ih found hrest c hc
      · simp only [cccGo, h, if_false] at hc
        rcases List.mem_cons.mp hc with rfl | hc'
        · intro x hx
          refine bfs_aux_closure adj (fun z => z ∈ allN) hadj fuel [n] [n] ?_ x hx
          intro y hy
          simp only [List.mem_singleton] at hy
          exact hy.symm ▸ hl n (List.mem_cons_self _ _)
        · exact ih _ hrest c hc'

theorem cccGo_comp_nodup (adj : String → List String) (fuel : Nat) :
    ∀ (l found : List String), ∀ c ∈ cccGo adj fuel found l, c.Nodup := by
  intro l
  induction l with
  | nil => intro found c hc; simp [cccGo] at hc
  | cons n rest ih =>
      intro found c hc
      by_cases h : n ∈ found
      · simp only [cccGo, h, if_true] at hc
        exact ih found c hc
      · simp only [cccGo, h, if_false] at hc
        rcases List.mem_cons.mp hc with rfl | hc'
        · exact bfs_aux_nodup adj fuel [n] [n] (by simp)
        · exact ih _ c hc'

theorem gdGo_cons_single (counts : String → Nat) (observed cl : List String)
    (rest : List (List String)) (h : cl.length = 1) :
    gdGo counts observed (cl :: rest) = cl :: gdGo counts (observed ++ cl) rest := by
  simp only [gdGo, h, if_true]

theorem gdGo_cons_multi (counts : String → Nat) (observed cl : List String)
    (rest : List (List String)) (h : ¬ cl.length = 1) :
    gdGo counts observed (cl :: rest) =
      newNodes observed (sortedByCountDesc counts cl) ::
        gdGo counts (observed ++ newNodes observed (sortedByCountDesc counts cl)) rest := by
  simp only [gdGo, h, if_false, foldl_dedupStep, List.nil_append]

theorem mem_sortedByCountDesc (counts : String → Nat) (l : List String) (x : String) :
    x ∈ sortedByCountDesc counts l ↔ x ∈ l := by
  unfold sortedByCountDesc
  exact List.mem_insertionSort _

/-- Main accounting lemma for `group_directional`: under the freshness
invariant delivered by the component extraction, every UMI of some component
that is not yet observed is emitted in exactly one group, and every already
observed UMI in none. -/
theorem gdGo_countP (counts : String → Nat) :
    ∀ (comps : List (List String)) (F : String → Prop) (observed : List String),
      FreshChain F comps → (∀ x ∈ observed, F x) → ∀ u : String,
      (gdGo counts observed comps).countP (fun g => decide (u ∈ g)) =
        if (∃ c ∈ comps, u ∈ c) ∧ u ∉ observed then 1 else 0 := by
  intro comps
  induction comps with
  | nil =>
      intro F observed _ _ u
      simp [gdGo]
  | cons cl rest ih =>
      intro F observed hfc hobs u
      cases hfc with
      | cons _ _ _ hex hrest =>
        by_cases hlen : cl.length = 1
        · obtain ⟨a, rfl⟩ : ∃ a, cl = [a] := List.length_eq_one.mp hlen
          have hFa : ¬ F a := by
            rcases hex with ⟨s, hs, hF⟩
            simp only [List.mem_singleton] at hs
            exact hs ▸ hF
          have haobs : a ∉ observed := fun hh => hFa (hobs a hh)
          rw [gdGo_cons_single counts observed _ rest hlen, List.countP_cons]
          have hobs' : ∀ x ∈ observed ++ [a], F x ∨ x ∈ [a] := by
            intro x hx
            rcases List.mem_append.mp hx with hx | hx
            · exact Or.inl (hobs x hx)
            · exact Or.inr hx
          rw [ih (fun x => F x ∨ x ∈ [a]) (observed ++ [a]) hrest hobs' u]
          by_cases hua : u = a
          · subst hua
            have h1 : u ∈ observed ++ [u] :=
              List.mem_append_right _ (List.mem_singleton.mpr rfl)
            have h2 : ∃ c ∈ ([u] :: rest), u ∈ c :=
              ⟨[u], List.mem_cons_self _ _, List.mem_singleton.mpr rfl⟩
            rw [if_neg (fun hh => hh.2 h1), if_pos (And.intro h2 haobs)]
            simp
          · have hnm : u ∉ [a] := by simp [hua]
            have hdec : ¬ (decide (u ∈ [a]) = true) := by simp [hua]
            rw [if_neg hdec, Nat.add_zero]
            have hcond : ((∃ c ∈ rest, u ∈ c) ∧ u ∉ observed ++ [a]) ↔
                ((∃ c ∈ [a] :: rest, u ∈ c) ∧ u ∉ observed) := by
              constructor
              · rintro ⟨⟨c, hc, huc⟩, ho⟩
                exact ⟨⟨c, List.mem_cons_of_mem _ hc, huc⟩,
                  fun hh => ho (List.mem_append_left _ hh)⟩
              · rintro ⟨⟨c, hc, huc⟩, ho⟩
                rcases List.mem_cons.mp hc with rfl | hc'
                · exact absurd huc hnm
                · refine ⟨⟨c, hc', huc⟩, fun hh => ?_⟩
                  rcases List.mem_append.mp hh with hh | hh
                  · exact ho hh
                  · exact hnm hh
            rw [if_congr hcond rfl rfl]
        · rw [gdGo_cons_multi counts observed cl rest hlen, List.countP_cons]
          have hnews_mem : ∀ x, x ∈ newNodes observed (sortedByCountDesc counts cl) ↔
              x ∈ cl ∧ x ∉ observed := by
            intro x
            rw [newNodes_mem, mem_sortedByCountDesc]
          have hobs' : ∀ x ∈ observed ++ newNodes observed (sortedByCountDesc counts cl),
              F x ∨ x ∈ cl := by
            intro x hx
            rcases List.mem_append.mp hx with hx | hx
            · exact Or.inl (hobs x hx)
            · exact Or.inr ((hnews_mem x).mp hx).1
          rw [ih (fun x => F x ∨ x ∈ cl) _ hrest hobs' u]
          by_cases hun : u ∈ newNodes observed (sortedByCountDesc counts cl)
          · have h1 := (hnews_mem u).mp hun
            have hdec : decide (u ∈ newNodes observed (sortedByCountDesc counts cl)) = true := by
              simp [hun]
            rw [if_pos hdec,
              if_neg (fun hh => hh.2 (List.mem_append_right _ hun)),
              if_pos (And.intro ⟨cl, List.mem_cons_self _ _, h1.1⟩ h1.2)]
          · have hdec : ¬ (decide (u ∈ newNodes observed (sortedByCountDesc counts cl)) = true) := by
              simp [hun]
            rw [if_neg hdec, Nat.add_zero]
            by_cases huo : u ∈ observed
            · rw [if_neg (fun hh => hh.2 (List.mem_append_left _ huo)),
                if_neg (fun hh => hh.2 huo)]
            · have hucl : u ∉ cl := fun hh => hun ((hnews_mem u).mpr ⟨hh, huo⟩)
              have hcond : ((∃ c ∈ rest, u ∈ c) ∧
                  u ∉ observed ++ newNodes observed (sortedByCountDesc counts cl)) ↔
                  ((∃ c ∈ cl :: rest, u ∈ c) ∧ u ∉ observed) := by
                constructor
                · rintro ⟨⟨c, hc, huc⟩, _⟩
                  exact ⟨⟨c, List.mem_cons_of_mem _ hc, huc⟩, huo⟩
                · rintro ⟨⟨c, hc, huc⟩, _⟩
                  refine ⟨?_, fun hh => ?_⟩
                  · rcases List.mem_cons.mp hc with rfl | hc'
                    · exact absurd huc hucl
                    · exact ⟨c, hc', huc⟩
                  · rcases List.mem_append.mp hh with hh | hh
                    · exact huo hh
                    · exact hun hh
              rw [if_congr hcond rfl rfl]

theorem gdGo_nonempty (counts : String → Nat) :
    ∀ (comps : List (List String)) (F : String → Prop) (observed : List String),
      FreshChain F comps → (∀ x ∈ observed, F x) →
      ∀ g ∈ gdGo counts observed comps, g ≠ [] := by
  intro comps
  induction comps with
  | nil => intro F observed _ _ g hg; simp [gdGo] at hg
  | cons cl rest ih =>
      intro F observed hfc hobs g hg
      cases hfc with
      | cons _ _ _ hex hrest =>
        by_cases hlen : cl.length = 1
        · rw [gdGo_cons_single counts observed _ rest hlen] at hg
          have hobs' : ∀ x ∈ observed ++ cl, F x ∨ x ∈ cl := by
            intro x hx
            rcases List.mem_append.mp hx with hx | hx
            · exact Or.inl (hobs x hx)
            · exact Or.inr hx
          rcases List.mem_cons.mp hg with rfl | hg'
          · intro hh
            rw [hh] at hlen
            simp at hlen
          · exact ih _ _ hrest hobs' g hg'
        · rw [gdGo_cons_multi counts observed cl rest hlen] at hg
          have hnews_mem : ∀ x, x ∈ newNodes observed (sortedByCountDesc counts cl) ↔
              x ∈ cl ∧ x ∉ observed := by
            intro x
            rw [newNodes_mem, mem_sortedByCountDesc]
          have hobs' : ∀ x ∈ observed ++ newNodes observed (sortedByCountDesc counts cl),
              F x ∨ x ∈ cl := by
            intro x hx
            rcases List.mem_append.mp hx with hx | hx
            · exact Or.inl (hobs x hx)
            · exact Or.inr ((hnews_mem x).mp hx).1
          rcases List.mem_cons.mp hg with rfl | hg'
          · rcases hex with ⟨s, hs, hF⟩
            have hmem : s ∈ newNodes observed (sortedByCountDesc counts cl) :=
              (hnews_mem s).mpr ⟨hs, fun hh => hF (hobs s hh)⟩
            intro hh
            rw [hh] at hmem
            simp at hmem
          · exact ih _ _ hrest hobs' g hg'

theorem sortedByCountDesc_pairwise (counts : String → Nat) (l : List String) :
    (sortedByCountDesc counts l).Pairwise (fun x y => counts y ≤ counts x) := by
  haveI h1 : IsTotal String (fun x y => counts y ≤ counts x) :=
    ⟨fun a b => Nat.le_total (counts b) (counts a)⟩
  haveI h2 : IsTrans String (fun x y => counts y ≤ counts x) :=
    ⟨fun a b c hab hbc => Nat.le_trans hbc hab⟩
  exact List.sorted_insertionSort _ l

theorem gdGo_groups_sorted (counts : String → Nat) :
    ∀ (comps : List (List String)) (observed : List String),
      ∀ g ∈ gdGo counts observed comps,
        g.Pairwise (fun x y => counts y ≤ counts x) := by
  intro comps
  induction comps with
  | nil => intro observed g hg; simp [gdGo] at hg
  | cons cl rest ih =>
      intro observed g hg
      by_cases hlen : cl.length = 1
      · rw [gdGo_cons_single counts observed _ rest hlen] at hg
        rcases List.mem_cons.mp hg with rfl | hg'
        · obtain ⟨a, rfl⟩ := List.length_eq_one.mp hlen
          simp
        · exact ih _ g hg'
      · rw [gdGo_cons_multi counts observed cl rest hlen] at hg
        rcases List.mem_cons.mp hg with rfl | hg'
        · exact List.Pairwise.sublist (newNodes_sublist _ _)
            (sortedByCountDesc_pairwise counts cl)
        · exact ih _ g hg'

theorem gdGo_members (counts : String → Nat) :
    ∀ (comps : List (List String)) (observed : List String),
      ∀ g ∈ gdGo counts observed comps, ∀ x ∈ g, ∃ c ∈ comps, x ∈ c := by
  intro comps
  induction comps with
  | nil => intro observed g hg; simp [gdGo] at hg
  | cons cl rest ih =>
      intro observed g hg x hx
      by_cases hlen : cl.length = 1
      · rw [gdGo_cons_single counts observed _ rest hlen] at hg
        rcases List.mem_cons.mp hg with rfl | hg'
        · exact ⟨g, List.mem_cons_self _ _, hx⟩
        · obtain ⟨c, hc, hxc⟩ := ih _ g hg' x hx
          exact ⟨c, List.mem_cons_of_mem _ hc, hxc⟩
      · rw [gdGo_cons_multi counts observed cl rest hlen] at hg
        rcases List.mem_cons.mp hg with rfl | hg'
        · have := (newNodes_mem _ _ _).mp hx
          rw [mem_sortedByCountDesc] at this
          exact ⟨cl, List.mem_cons_self _ _, this.1⟩
        · obtain ⟨c, hc, hxc⟩ := ih _ g hg' x hx
          exact ⟨c, List.mem_cons_of_mem _ hc, hxc⟩

theorem gdGo_groups_nodup (counts : String → Nat) :
    ∀ (comps : List (List String)) (observed : List String),
      (∀ c ∈ comps, c.Nodup) →
      ∀ g ∈ gdGo counts observed comps, g.Nodup := by
  intro comps
  induction comps with
  | nil => intro observed _ g hg; simp [gdGo] at hg
  | cons cl rest ih =>
      intro observed hnd g hg
      have hrest : ∀ c ∈ rest, c.Nodup := fun c hc => hnd c (List.mem_cons_of_mem _ hc)
      by_cases hlen : cl.length = 1
      · rw [gdGo_cons_single counts observed _ rest hlen] at hg
        rcases List.mem_cons.mp hg with rfl | hg'
        · exact hnd g (List.mem_cons_self _ _)
        · exact ih _ hrest g hg'
      · rw [gdGo_cons_multi counts observed cl rest hlen] at hg
        rcases List.mem_cons.mp hg with rfl | hg'
        · exact newNodes_nodup _ _
        · exact ih _ hrest g hg'

theorem freshChain_map_shuffle (shuffle : List String → List String)
    (hsh : ∀ l : List String, (shuffle l).Perm l) :
    ∀ (comps : List (List String)) (F : String → Prop),
      FreshChain F comps → FreshChain F (comps.map shuffle) := by
  intro comps
  induction comps with
  | nil => intro F _; exact FreshChain.nil F
  | cons c cs ih =>
      intro F h
      cases h with
      | cons _ _ _ hex hrest =>
          rw [List.map_cons]
          refine FreshChain.cons _ _ _ ?_ ?_
          · rcases hex with ⟨s, hs, hF⟩
            exact ⟨s, ((hsh c).mem_iff).mpr hs, hF⟩
          · refine freshChain_congr ?_ (ih _ hrest)
            intro x
            exact or_congr Iff.rfl ((hsh c).mem_iff).symm

theorem fold_update_not_mem (v : Option String) :
    ∀ (l : List String) (m : String → Option String) (y : String), y ∉ l →
      (l.foldl (fun m' y' => fun z => if z = y' then v else m' z) m) y = m y := by
  intro l
  induction l with
  | nil => intro m y _; rfl
  | cons a l ih =>
      intro m y hy
      have hya : y ≠ a := fun hh => hy (hh ▸ List.mem_cons_self _ _)
      rw [List.foldl_cons, ih _ y (fun hh => hy (List.mem_cons_of_mem _ hh))]
      simp [hya]

theorem fold_update_mem (v : Option String) :
    ∀ (l : List String) (m : String → Option String) (y : String), y ∈ l →
      (l.foldl (fun m' y' => fun z => if z = y' then v else m' z) m) y = v := by
  intro l
  induction l with
  | nil => intro m y hy; simp at hy
  | cons a l ih =>
      intro m y hy
      by_cases hyl : y ∈ l
      · rw [List.foldl_cons]
        exact ih _ y hyl
      · have hya : y = a := by
          rcases List.mem_cons.mp hy with h | h
          · exact h
          · exact absurd h hyl
        rw [List.foldl_cons, fold_update_not_mem v l _ y hyl]
        simp [hya]

theorem create_map_outer_not_mem :
    ∀ (L : List (List String)) (m0 : String → Option String) (y : String),
      (∀ g ∈ L, y ∉ g) →
      (L.foldl (fun m x =>
        x.foldl (fun m' y' => fun z => if z = y' then x.head? else m' z) m) m0) y = m0 y := by
  intro L
  induction L with
  | nil => intro m0 y _; rfl
  | cons g L ih =>
      intro m0 y hy
      rw [List.foldl_cons, ih _ y (fun g' hg' => hy g' (List.mem_cons_of_mem _ hg'))]
      exact fold_update_not_mem g.head? g m0 y (hy g (List.mem_cons_self _ _))

/-- If `y` lies in exactly one cluster of the list, the dict comprehension
sends it to that cluster's first element. -/
theorem create_map_foldl_unique :
    ∀ (L : List (List String)) (m0 : String → Option String) (y : String)
      (g : List String),
      g ∈ L → y ∈ g → L.countP (fun g' => decide (y ∈ g')) = 1 →
      (L.foldl (fun m x =>
        x.foldl (fun m' y' => fun z => if z = y' then x.head? else m' z) m) m0) y =
        g.head? := by
  intro L
  induction L with
  | nil => intro m0 y g hg; simp at hg
  | cons g0 L ih =>
      intro m0 y g hg hy hcount
      rw [List.countP_cons] at hcount
      by_cases hyg0 : y ∈ g0
      · have hdec : decide (y ∈ g0) = true := by simp [hyg0]
        rw [if_pos hdec] at hcount
        have hrest : L.countP (fun g' => decide (y ∈ g')) = 0 := by omega
        have hnotL : ∀ g' ∈ L, y ∉ g' := by
          intro g' hg' hyg'
          exact (List.countP_eq_zero.mp hrest g' hg') (by simp [hyg'])
        have hgg0 : g = g0 := by
          rcases List.mem_cons.mp hg with h | h
          · exact h
          · exact absurd hy (hnotL g h)
        subst hgg0
        rw [List.foldl_cons, create_map_outer_not_mem L _ y hnotL]
        exact fold_update_mem g.head? g m0 y hy
      · have hdec : ¬ (decide (y ∈ g0) = true) := by simp [hyg0]
        rw [if_neg hdec, Nat.add_zero] at hcount
        have hgL : g ∈ L := by
          rcases List.mem_cons.mp hg with h | h
          · rw [h] at hy
            exact absurd hy hyg0
          · exact h
        rw [List.foldl_cons]
        exact ih _ y g hgL hy hcount

theorem cluster_freshChain (umis : List String) (counts : String → Nat)
    (shuffle : List String → List String) (t : Nat)
    (hsh : ∀ l, (shuffle l).Perm l) :
    FreshChain (fun x => x ∈ ([] : List String))
      ((get_connected_components_adjacency umis
        (adjGet (get_adj_list_directional umis counts t)) counts).map shuffle) := by
  refine freshChain_map_shuffle shuffle hsh _ _ ?_
  unfold get_connected_components_adjacency
  exact cccGo_freshChain _ _ _ _

theorem cluster_cover (umis : List String) (counts : String → Nat)
    (shuffle : List String → List String) (t : Nat) (hnd : umis.Nodup)
    (hsh : ∀ l, (shuffle l).Perm l) (u : String) :
    (∃ c ∈ (get_connected_components_adjacency umis
        (adjGet (get_adj_list_directional umis counts t)) counts).map shuffle, u ∈ c) ↔
      u ∈ umis := by
  constructor
  · rintro ⟨c, hc, huc⟩
    rcases List.mem_map.mp hc with ⟨c0, hc0, rfl⟩
    have huc0 : u ∈ c0 := ((hsh c0).mem_iff).mp huc
    unfold get_connected_components_adjacency at hc0
    refine cccGo_subset _ _ umis ?_ _ [] ?_ c0 hc0 u huc0
    · intro n x hx
      exact (adjGet_directional_subset umis counts t hnd n x hx).1
    · intro x hx
      exact (mem_sortedByCountDesc counts umis x).mp hx
  · intro hu
    unfold get_connected_components_adjacency
    have := cccGo_cover (adjGet (get_adj_list_directional umis counts t)) umis.length
      (sortedByCountDesc counts umis) [] u ((mem_sortedByCountDesc counts umis u).mpr hu)
    rcases this with h | ⟨c, hc, huc⟩
    · simp at h
    · exact ⟨shuffle c, List.mem_map_of_mem _ hc, ((hsh c).mem_iff).mpr huc⟩

/-- Exactly-once emission for the whole per-group pipeline. -/
theorem cluster_countP (umis : List String) (counts : String → Nat)
    (shuffle : List String → List String) (t : Nat) (hnd : umis.Nodup)
    (hsh : ∀ l, (shuffle l).Perm l) (u : String) :
    (cluster umis counts shuffle t).countP (fun g => decide (u ∈ g)) =
      if u ∈ umis then 1 else 0 := by
  unfold cluster group_directional
  rw [gdGo_countP counts _ _ [] (cluster_freshChain umis counts shuffle t hsh)
    (by simp) u]
  have hcond : ((∃ c ∈ (get_connected_components_adjacency umis
      (adjGet (get_adj_list_directional umis counts t)) counts).map shuffle, u ∈ c) ∧
      u ∉ ([] : List String)) ↔ u ∈ umis := by
    rw [and_iff_left (List.not_mem_nil u)]
    exact cluster_cover umis counts shuffle t hnd hsh u
  rw [if_congr hcond rfl rfl]

theorem cluster_members (umis : List String) (counts : String → Nat)
    (shuffle : List String → List String) (t : Nat) (hnd : umis.Nodup)
    (hsh : ∀ l, (shuffle l).Perm l) :
    ∀ g ∈ cluster umis counts shuffle t, ∀ x ∈ g, x ∈ umis := by
  intro g hg x hx
  unfold cluster group_directional at hg
  obtain ⟨c, hc, hxc⟩ := gdGo_members counts _ [] g hg x hx
  exact (cluster_cover umis counts shuffle t hnd hsh x).mp ⟨c, hc, hxc⟩

theorem cluster_nonempty_groups (umis : List String) (counts : String → Nat)
    (shuffle : List String → List String) (t : Nat)
    (hsh : ∀ l, (shuffle l).Perm l) :
    ∀ g ∈ cluster umis counts shuffle t, g ≠ [] := by
  intro g hg
  unfold cluster group_directional at hg
  exact gdGo_nonempty counts _ _ []
    (cluster_freshChain umis counts shuffle t hsh) (by simp) g hg

theorem cluster_groups_sorted (umis : List String) (counts : String → Nat)
    (shuffle : List String → List String) (t : Nat) :
    ∀ g ∈ cluster umis counts shuffle t,
      g.Pairwise (fun x y => counts y ≤ counts x) := by
  intro g hg
  unfold cluster group_directional at hg
  exact gdGo_groups_sorted counts _ [] g hg

theorem cluster_groups_nodup (umis : List String) (counts : String → Nat)
    (shuffle : List String → List String) (t : Nat)
    (hsh : ∀ l, (shuffle l).Perm l) :
    ∀ g ∈ cluster umis counts shuffle t, g.Nodup := by
  intro g hg
  unfold cluster group_directional at hg
  refine gdGo_groups_nodup counts _ [] ?_ g hg
  intro c hc
  rcases List.mem_map.mp hc with ⟨c0, hc0, rfl⟩
  have hc0nd : c0.Nodup := by
    unfold get_connected_components_adjacency at hc0
    exact cccGo_comp_nodup _ _ _ _ c0 hc0
  exact ((hsh c0).nodup_iff).mpr hc0nd

/-- Two count-descending orderings of the same duplicate-free elements agree
when no two elements share a count. -/
theorem sorted_perm_unique (counts : String → Nat) :
    ∀ (l1 l2 : List String), l1.Perm l2 →
      l1.Pairwise (fun x y => counts y ≤ counts x) →
      l2.Pairwise (fun x y => counts y ≤ counts x) →
      (∀ a ∈ l1, ∀ b ∈ l1, counts a = counts b → a = b) →
      l1 = l2 := by
  intro l1
  induction l1 with
  | nil =>
      intro l2 hp _ _ _
      exact (hp.symm.eq_nil).symm
  | cons a l1 ih =>
      intro l2 hp h1 h2 hinj
      cases l2 with
      | nil => exact absurd (hp.eq_nil) (by simp)
      | cons b l2 =>
          have hab : a = b := by
            by_cases hab : a = b
            · exact hab
            · exfalso
              have hbmem : b ∈ a :: l1 := hp.symm.subset (List.mem_cons_self _ _)
              have hamem : a ∈ b :: l2 := hp.subset (List.mem_cons_self _ _)
              have hb1 : b ∈ l1 :=
                (List.mem_cons.mp hbmem).resolve_left (fun hh => hab hh.symm)
              have ha2 : a ∈ l2 := (List.mem_cons.mp hamem).resolve_left hab
              have hcb : counts b ≤ counts a := (List.pairwise_cons.mp h1).1 b hb1
              have hca : counts a ≤ counts b := (List.pairwise_cons.mp h2).1 a ha2
              exact hab (hinj a (List.mem_cons_self _ _) b hbmem
                (Nat.le_antisymm hca hcb))
          subst hab
          have hp' := hp.cons_inv
          have heq := ih l2 hp' (List.pairwise_cons.mp h1).2 (List.pairwise_cons.mp h2).2
            (fun x hx y hy hc =>
              hinj x (List.mem_cons_of_mem _ hx) y (List.mem_cons_of_mem _ hy) hc)
          rw [heq]

theorem forall₂_map_map {R : List String → List String → Prop}
    (f g : List String → List String) :
    ∀ (l : List (List String)), (∀ c ∈ l, R (f c) (g c)) →
      List.Forall₂ R (l.map f) (l.map g) := by
  intro l
  induction l with
  | nil => intro _; exact List.Forall₂.nil
  | cons c cs ih =>
      intro h
      exact List.Forall₂.cons (h c (List.mem_cons_self _ _))
        (ih fun c' hc' => h c' (List.mem_cons_of_mem _ hc'))

/-- `group_directional` only looks at each component through its length, its
stable count sort, and (for singletons) its unique element, so component
lists that agree on those produce identical groups. -/
theorem gdGo_congr (counts : String → Nat) :
    ∀ (c1 c2 : List (List String)) (observed : List String),
      List.Forall₂ (fun x y => x.Perm y ∧
        sortedByCountDesc counts x = sortedByCountDesc counts y) c1 c2 →
      gdGo counts observed c1 = gdGo counts observed c2 := by
  intro c1
  induction c1 with
  | nil =>
      intro c2 observed h
      cases h
      rfl
  | cons cl rest ih =>
      intro c2 observed h
      cases h with
      | cons h1 h2 =>
          obtain ⟨hperm, hsort⟩ := h1
          rename_i b l2
          by_cases hlen : cl.length = 1
          · have hlen2 : b.length = 1 := by rw [← hperm.length_eq]; exact hlen
            obtain ⟨x, rfl⟩ := List.length_eq_one.mp hlen
            obtain ⟨y, rfl⟩ := List.length_eq_one.mp hlen2
            have hxy : x = y := by
              have := hperm.subset (List.mem_cons_self x [])
              simpa using this
            subst hxy
            rw [gdGo_cons_single _ _ _ _ hlen, gdGo_cons_single _ _ _ _ hlen2,
              ih _ _ h2]
          · have hlen2 : ¬ b.length = 1 := fun hh =>
              hlen (by rw [hperm.length_eq]; exact hh)
            rw [gdGo_cons_multi _ _ _ _ hlen, gdGo_cons_multi _ _ _ _ hlen2, hsort,
              ih _ _ h2]

/-- When counts are injective on the UMIs, the set-iteration order of the
components does not influence the emitted clusters. -/
theorem cluster_shuffle_indep (umis : List String) (counts : String → Nat)
    (s1 s2 : List String → List String) (t : Nat) (hnd : umis.Nodup)
    (h1 : ∀ l, (s1 l).Perm l) (h2 : ∀ l, (s2 l).Perm l)
    (hinj : ∀ a ∈ umis, ∀ b ∈ umis, counts a = counts b → a = b) :
    cluster umis counts s1 t = cluster umis counts s2 t := by
  unfold cluster group_directional
  apply gdGo_congr
  apply forall₂_map_map
  intro c hc
  have hcnd : c.Nodup := by
    unfold get_connected_components_adjacency at hc
    exact cccGo_comp_nodup _ _ _ _ c hc
  have hcsub : ∀ x ∈ c, x ∈ umis := by
    unfold get_connected_components_adjacency at hc
    refine cccGo_subset _ _ umis ?_ _ [] ?_ c hc
    · intro n x hx
      exact (adjGet_directional_subset umis counts t hnd n x hx).1
    · intro x hx
      exact (mem_sortedByCountDesc counts umis x).mp hx
  have hperm12 : (s1 c).Perm (s2 c) := (h1 c).trans (h2 c).symm
  refine ⟨hperm12, ?_⟩
  have hps1 : (sortedByCountDesc counts (s1 c)).Perm (sortedByCountDesc counts (s2 c)) := by
    unfold sortedByCountDesc
    exact (List.perm_insertionSort _ _).trans (hperm12.trans (List.perm_insertionSort _ _).symm)
  have hmem1 : ∀ x ∈ sortedByCountDesc counts (s1 c), x ∈ c := by
    intro x hx
    rw [mem_sortedByCountDesc] at hx
    exact ((h1 c).mem_iff).mp hx
  refine sorted_perm_unique counts _ _ hps1 (sortedByCountDesc_pairwise counts _)
    (sortedByCountDesc_pairwise counts _) ?_
  intro a ha b hb hcab
  exact hinj a (hcsub a (hmem1 a ha)) b (hcsub b (hmem1 b hb)) hcab

theorem compSpec_congr (adj : String → List String) (counts : String → Nat)
    (allUmis : List String) :
    ∀ {cs : List (List String)} {F G : String → Prop},
      (∀ x, F x ↔ G x) → CompSpec adj counts allUmis F cs →
      CompSpec adj counts allUmis G cs := by
  intro cs
  induction cs with
  | nil => intro F G h _; exact CompSpec.nil G
  | cons c cs ih =>
      intro F G h hf
      cases hf with
      | cons _ _ _ s hs hFs hreach hmax hrest =>
          refine CompSpec.cons G c cs s hs (fun hg => hFs ((h s).mpr hg)) hreach
            (fun u hu hg => hmax u hu (fun hf' => hg ((h u).mp hf'))) ?_
          exact ih (fun x => or_congr (h x) Iff.rfl) hrest

theorem cccGo_compSpec (adj : String → List String) (counts : String → Nat)
    (umis : List String) (fuel : Nat)
    (hadj : ∀ n x, x ∈ adj n → x ∈ umis) (hfuel : umis.length ≤ fuel) :
    ∀ (l found : List String),
      l.Pairwise (fun x y => counts y ≤ counts x) →
      (∀ x ∈ l, x ∈ umis) →
      (∀ u ∈ umis, u ∉ found → u ∈ l) →
      CompSpec adj counts umis (fun x => x ∈ found) (cccGo adj fuel found l) := by
  intro l
  induction l with
  | nil => intro found _ _ _; exact CompSpec.nil _
  | cons n rest ih =>
      intro found hsor hsub hcov
      have hsor' := (List.pairwise_cons.mp hsor).2
      have hsub' : ∀ x ∈ rest, x ∈ umis := fun x hx => hsub x (List.mem_cons_of_mem _ hx)
      by_cases h : n ∈ found
      · simp only [cccGo, h, if_true]
        refine ih found hsor' hsub' ?_
        intro u hu hnf
        rcases List.mem_cons.mp (hcov u hu hnf) with rfl | h2
        · exact absurd h hnf
        · exact h2
      · simp only [cccGo, h, if_false]
        refine CompSpec.cons _ _ _ n (bfs_start_mem _ _ _) h ?_ ?_ ?_
        · intro x
          constructor
          · intro hr
            exact bfs_reach_mem n adj umis fuel hadj
              (hsub n (List.mem_cons_self _ _)) hfuel x hr
          · intro hm
            exact bfs_sound n adj fuel x hm
        · intro u hu hnf
          rcases List.mem_cons.mp (hcov u hu hnf) with rfl | h2
          · exact Nat.le_refl _
          · exact (List.pairwise_cons.mp hsor).1 u h2
        · refine compSpec_congr adj counts umis (fun x => ?_)
            (ih (found ++ breadth_first_search n adj fuel) hsor' hsub' ?_)
          · simp [List.mem_append]
          · intro u hu hnf
            have hnf1 : u ∉ found := fun hh => hnf (List.mem_append_left _ hh)
            rcases List.mem_cons.mp (hcov u hu hnf1) with rfl | h2
            · exact absurd (List.mem_append_right _ (bfs_start_mem _ _ _)) hnf
            · exact h2

theorem components_compSpec (umis : List String) (counts : String → Nat)
    (t : Nat) (hnd : umis.Nodup) :
    CompSpec (adjGet (get_adj_list_directional umis counts t)) counts umis
      (fun _ => False)
      (get_connected_components_adjacency umis
        (adjGet (get_adj_list_directional umis counts t)) counts) := by
  unfold get_connected_components_adjacency
  refine compSpec_congr _ _ _ (fun x => ?_)
    (cccGo_compSpec (adjGet (get_adj_list_directional umis counts t)) counts umis
      umis.length ?_ (Nat.le_refl _) (sortedByCountDesc counts umis) []
      (sortedByCountDesc_pairwise counts umis) ?_ ?_)
  · simp
  · intro n x hx
    exact (adjGet_directional_subset umis counts t hnd n x hx).1
  · intro x hx
    exact (mem_sortedByCountDesc counts umis x).mp hx
  · intro u hu _
    exact (mem_sortedByCountDesc counts umis u).mpr hu

theorem processStep_eq (refInterval maxReads : Nat) (cnt : String × String → Nat)
    (out : List OutRec) (row : AnnRow) :
    processStep refInterval maxReads (cnt, out) row =
      (fun k => if k = recKey (resolveRow refInterval row) then cnt k + 1 else cnt k,
       if cnt (recKey (resolveRow refInterval row)) + 1 ≤ maxReads
         then out ++ [resolveRow refInterval row] else out) := by
  unfold processStep
  by_cases h : cnt (recKey (resolveRow refInterval row)) + 1 ≤ maxReads <;>
    simp [h]

/-- The retained records of each (barcode, gene) group are exactly the first
`maxReads - cnt k` resolved rows of that group, in encounter order. -/
theorem process_rows_filter (refInterval maxReads : Nat) :
    ∀ (rows : List AnnRow) (cnt : String × String → Nat) (out : List OutRec)
      (k : String × String),
      ((rows.foldl (processStep refInterval maxReads) (cnt, out)).2.filter
        (fun r => decide (recKey r = k))) =
      out.filter (fun r => decide (recKey r = k)) ++
        ((rows.map (resolveRow refInterval)).filter
          (fun r => decide (recKey r = k))).take (maxReads - cnt k) := by
  intro rows
  induction rows with
  | nil =>
      intro cnt out k
      simp
  | cons row rows ih =>
      intro cnt out k
      rw [List.foldl_cons, processStep_eq]
      by_cases hkeep : cnt (recKey (resolveRow refInterval row)) + 1 ≤ maxReads
      · rw [if_pos hkeep, ih]
        by_cases hk : recKey (resolveRow refInterval row) = k
        · have h1 : maxReads - cnt k = (maxReads - (cnt k + 1)) + 1 := by
            rw [hk] at hkeep
            omega
          simp only [hk, List.filter_append, List.filter_cons, List.map_cons,
            decide_eq_true_eq, if_pos rfl, List.filter_nil, h1,
            List.take_succ_cons, List.append_assoc, List.singleton_append,
            List.nil_append]
          simp [List.take_succ_cons]
        · have hk' : ¬ k = recKey (resolveRow refInterval row) := fun hh => hk hh.symm
          simp only [List.filter_append, List.filter_cons, List.map_cons,
            decide_eq_true_eq, hk, hk', if_false, List.filter_nil,
            List.append_nil]
      · rw [if_neg hkeep, ih]
        by_cases hk : recKey (resolveRow refInterval row) = k
        · have h1 : maxReads - cnt k = 0 := by
            rw [hk] at hkeep
            omega
          have h2 : maxReads - (cnt k + 1) = 0 := by omega
          simp only [hk, List.filter_cons, List.map_cons, decide_eq_true_eq,
            if_pos rfl, h1, h2, List.take_zero, List.append_nil]
          simp [h2]
        · have hk' : ¬ k = recKey (resolveRow refInterval row) := fun hh => hk hh.symm
          simp [hk, hk']

/-- C1: for every UMI count map given to the per-group pipeline (cluster,
i.e. adjacency + components + group_directional), every distinct raw UMI of
the map appears in exactly one emitted cluster, and every member of an
emitted cluster is a UMI of the map — the union of the clusters is exactly
the UMI set, with no loss and no duplication, for every set-iteration order
of the (possibly overlapping) components. -/
theorem C1_partition (umis : List String) (counts : String → Nat)
    (shuffle : List String → List String) (t : Nat) (hnd : umis.Nodup)
    (hsh : ∀ l, (shuffle l).Perm l) :
    (∀ u ∈ umis,
      (cluster umis counts shuffle t).countP (fun g => decide (u ∈ g)) = 1) ∧
    (∀ g ∈ cluster umis counts shuffle t, ∀ x ∈ g, x ∈ umis) ∧
    (∀ g ∈ cluster umis counts shuffle t, g.Nodup) := by
  refine ⟨?_, cluster_members umis counts shuffle t hnd hsh,
    cluster_groups_nodup umis counts shuffle t hsh⟩
  intro u hu
  rw [cluster_countP umis counts shuffle t hnd hsh u, if_pos hu]

theorem C1_witness :
    (∀ u ∈ exUmis,
      (cluster exUmis exCounts id 3).countP (fun g => decide (u ∈ g)) = 1) ∧
    (∀ g ∈ cluster exUmis exCounts id 3, ∀ x ∈ g, x ∈ exUmis) ∧
    (∀ g ∈ cluster exUmis exCounts id 3, g.Nodup) :=
  C1_partition exUmis exCounts id 3 (by decide) (fun l => List.Perm.refl l)

/-- C2: the correction map sends every member of an emitted cluster to that
cluster's first element; that representative belongs to the cluster and its
count is maximal there (ties resolved by the emission order); consequently a
UMI is never mapped to a strictly less abundant UMI of its cluster. -/
theorem C2_correction_map (umis : List String) (counts : String → Nat)
    (shuffle : List String → List String) (t : Nat) (hnd : umis.Nodup)
    (hsh : ∀ l, (shuffle l).Perm l) :
    ∀ g ∈ cluster umis counts shuffle t, ∃ rep,
      g.head? = some rep ∧ rep ∈ g ∧
      (∀ y ∈ g, correctionMap umis counts shuffle t y = some rep ∧
        counts y ≤ counts rep) ∧
      (∀ a ∈ g, ∀ b ∈ g, counts b < counts a →
        correctionMap umis counts shuffle t a ≠ some b) := by
  intro g hg
  have hne := cluster_nonempty_groups umis counts shuffle t hsh g hg
  obtain ⟨rep, grest, rfl⟩ : ∃ rep grest, g = rep :: grest := by
    cases g with
    | nil => exact absurd rfl hne
    | cons a l => exact ⟨a, l, rfl⟩
  have hmapall : ∀ y ∈ rep :: grest,
      correctionMap umis counts shuffle t y = some rep := by
    intro y hy
    have hcount : (cluster umis counts shuffle t).countP
        (fun g' => decide (y ∈ g')) = 1 := by
      rw [cluster_countP umis counts shuffle t hnd hsh y,
        if_pos (cluster_members umis counts shuffle t hnd hsh _ hg y hy)]
    unfold correctionMap create_map_to_correct_umi
    exact create_map_foldl_unique (cluster umis counts shuffle t)
      (fun _ => none) y (rep :: grest) hg hy hcount
  have hcnt : ∀ y ∈ rep :: grest, counts y ≤ counts rep := by
    intro y hy
    have hsorted := cluster_groups_sorted umis counts shuffle t _ hg
    rcases List.mem_cons.mp hy with rfl | hy'
    · exact Nat.le_refl _
    · exact (List.pairwise_cons.mp hsorted).1 y hy'
  refine ⟨rep, rfl, List.mem_cons_self _ _,
    fun y hy => ⟨hmapall y hy, hcnt y hy⟩, ?_⟩
  intro a ha b hb hab hmap
  rw [hmapall a ha] at hmap
  have hrb : rep = b := by injection hmap
  have h1 : counts a ≤ counts rep := hcnt a ha
  rw [hrb] at h1
  omega

theorem C2_witness :
    correctionMap exUmis exCounts id 3 "AAAAT" = some "AAAAA" ∧
    exCounts "AAAAT" ≤ exCounts "AAAAA" := by
  obtain ⟨rep, hhead, hmem, hprops, hmono⟩ :=
    C2_correction_map exUmis exCounts id 3 (by decide) (fun l => List.Perm.refl l)
      ["AAAAA", "AAAAT"] (by decide)
  have hh : (["AAAAA", "AAAAT"] : List String).head? = some "AAAAA" := rfl
  rw [hh] at hhead
  have hrep : rep = "AAAAA" := (Option.some_inj.mp hhead).symm
  subst hrep
  exact hprops "AAAAT" (by decide)

/-- C3 counterexample: on the count map {AC: 1, CA: 1} (a tie inside one
two-member component) the correction map depends on the iteration order of
the component set: with insertion order the representative is "AC", with the
reversed order it is "CA".  Both orders are permutations, i.e. legitimate
set-iteration orders, so two runs of the per-group correction on the same
map can differ. -/
theorem C3_counterexample :
    (∀ l : List String, (List.reverse l).Perm l) ∧
    correctionMap ["AC", "CA"] tieCounts id 3 "CA" = some "AC" ∧
    correctionMap ["AC", "CA"] tieCounts List.reverse 3 "CA" = some "CA" ∧
    correctionMap ["AC", "CA"] tieCounts id 3 "CA" ≠
      correctionMap ["AC", "CA"] tieCounts List.reverse 3 "CA" := by
  refine ⟨fun l => List.reverse_perm l, by decide, by decide, by decide⟩

/-- C3 (amended): the per-group correction map is a pure function of the
count map together with the set-iteration order used when sorting each
component; it does not otherwise depend on batching or workers, and whenever
no two UMIs of the map share a count, it is independent of the iteration
order as well, so determinism then rests only on the count sort. -/
theorem C3_amended (umis : List String) (counts : String → Nat)
    (s1 s2 : List String → List String) (t : Nat) (hnd : umis.Nodup)
    (h1 : ∀ l, (s1 l).Perm l) (h2 : ∀ l, (s2 l).Perm l)
    (hinj : ∀ a ∈ umis, ∀ b ∈ umis, counts a = counts b → a = b) :
    correctionMap umis counts s1 t = correctionMap umis counts s2 t := by
  unfold correctionMap
  rw [cluster_shuffle_indep umis counts s1 s2 t hnd h1 h2 hinj]

theorem C3_witness :
    correctionMap exUmis exCounts id 3 =
      correctionMap exUmis exCounts List.reverse 3 :=
  C3_amended exUmis exCounts id List.reverse 3 (by decide)
    (fun l => List.Perm.refl l) (fun l => List.reverse_perm l) (by decide)

/-- C4: the adjacency dict built by `get_adj_list_directional` has exactly
the distinct UMIs as keys; for distinct UMIs the directed edge u → v is
stored iff the Levenshtein distance is within the threshold and
count(u) ≥ 2·count(v) − 1 (the two directions of a pair being admitted
independently); and neighbour lists never contain foreign UMIs or self
loops, so isolated UMIs keep an empty list. -/
theorem C4_adjacency (umis : List String) (counts : String → Nat) (t : Nat)
    (hnd : umis.Nodup) :
    ((get_adj_list_directional umis counts t).map Prod.fst = umis) ∧
    (∀ u ∈ umis, ∀ v ∈ umis, u ≠ v →
      (v ∈ adjGet (get_adj_list_directional umis counts t) u ↔
        levS u v ≤ t ∧ (counts u : Int) ≥ (counts v : Int) * 2 - 1)) ∧
    (∀ u v : String, v ∈ adjGet (get_adj_list_directional umis counts t) u →
      v ∈ umis ∧ v ≠ u) :=
  ⟨get_adj_list_directional_keys umis counts t,
   fun u hu v hv huv => adjGet_directional_iff umis counts t hnd u v hu hv huv,
   fun u v hv => adjGet_directional_subset umis counts t hnd u v hv⟩

theorem C4_witness :
    ((get_adj_list_directional exUmis exCounts 2).map Prod.fst = exUmis) ∧
    ("AAAAT" ∈ adjGet (get_adj_list_directional exUmis exCounts 2) "AAAAA" ↔
      levS "AAAAA" "AAAAT" ≤ 2 ∧
        (exCounts "AAAAA" : Int) ≥ (exCounts "AAAAT" : Int) * 2 - 1) ∧
    ("AAAAT" ∈ adjGet (get_adj_list_directional exUmis exCounts 2) "AAAAA") :=
  ⟨(C4_adjacency exUmis exCounts 2 (by decide)).1,
   (C4_adjacency exUmis exCounts 2 (by decide)).2.1 "AAAAA" (by decide)
     "AAAAT" (by decide) (by decide),
   by decide⟩

/-- C5 counterexample: with UMIs AAA, TTT (count 5 each) and ATT (count 1),
threshold 2, the stored edges are AAA → ATT and TTT → ATT only.  The
traversal follows only stored out-neighbour lists, so AAA and TTT end up in
different components even though an undirected reading of the edges connects
them through ATT, and ATT — although absorbed by the first component — also
appears in the second: components of the output can overlap. -/
theorem C5_counterexample :
    get_connected_components_adjacency ovUmis
        (adjGet (get_adj_list_directional ovUmis ovCounts 2)) ovCounts =
      [["AAA", "ATT"], ["TTT", "ATT"]] ∧
    (get_connected_components_adjacency ovUmis
        (adjGet (get_adj_list_directional ovUmis ovCounts 2)) ovCounts).countP
      (fun c => decide ("ATT" ∈ c)) = 2 ∧
    "ATT" ∈ adjGet (get_adj_list_directional ovUmis ovCounts 2) "AAA" ∧
    "ATT" ∈ adjGet (get_adj_list_directional ovUmis ovCounts 2) "TTT" := by
  refine ⟨by decide, by decide, by decide, by decide⟩

/-- C5 (amended): the extraction realises *directed* reachability — each
component is exactly the set of UMIs reachable from its start by following
stored out-neighbour lists; components are discovered starting from the
highest-remaining-count unvisited node; a node absorbed into a component
never starts another component, but it can reappear inside later components
(deduplication is deferred to the directional grouper). -/
theorem C5_amended (umis : List String) (counts : String → Nat) (t : Nat)
    (hnd : umis.Nodup) :
    CompSpec (adjGet (get_adj_list_directional umis counts t)) counts umis
      (fun _ => False)
      (get_connected_components_adjacency umis
        (adjGet (get_adj_list_directional umis counts t)) counts) :=
  components_compSpec umis counts t hnd

theorem C5_witness :
    CompSpec (adjGet (get_adj_list_directional ovUmis ovCounts 2)) ovCounts
      ovUmis (fun _ => False)
      (get_connected_components_adjacency ovUmis
        (adjGet (get_adj_list_directional ovUmis ovCounts 2)) ovCounts) :=
  C5_amended ovUmis ovCounts 2 (by decide)

/-- C9: every cluster emitted by the pipeline is non-empty (a multi-member
component always contributes at least its unobserved start), so the
correction map always finds a first element. -/
theorem C9_nonempty (umis : List String) (counts : String → Nat)
    (shuffle : List String → List String) (t : Nat)
    (hsh : ∀ l, (shuffle l).Perm l) :
    ∀ g ∈ cluster umis counts shuffle t, g ≠ [] ∧ g.head?.isSome = true := by
  intro g hg
  have hne := cluster_nonempty_groups umis counts shuffle t hsh g hg
  refine ⟨hne, ?_⟩
  cases g with
  | nil => exact absurd rfl hne
  | cons a l => rfl

theorem C9_witness :
    (["AAA", "ATT"] : List String) ≠ [] ∧
    (["AAA", "ATT"] : List String).head?.isSome = true :=
  C9_nonempty ovUmis ovCounts id 2 (fun l => List.Perm.refl l)
    ["AAA", "ATT"] (by decide)

/-- C6: the records retained for a (barcode, gene) group are exactly the
first `maxReads` resolved rows of that group in encounter order; in
particular a group exceeding the cap keeps exactly `maxReads` records, the
remainder being excluded with no error raised (the model is total). -/
theorem C6_cap (rows : List AnnRow) (refInterval maxReads : Nat)
    (k : String × String) :
    ((process_records_rows rows refInterval maxReads).filter
        (fun r => decide (recKey r = k)) =
      ((rows.map (resolveRow refInterval)).filter
        (fun r => decide (recKey r = k))).take maxReads) ∧
    (maxReads < ((rows.map (resolveRow refInterval)).filter
        (fun r => decide (recKey r = k))).length →
      ((process_records_rows rows refInterval maxReads).filter
        (fun r => decide (recKey r = k))).length = maxReads) := by
  have h := process_rows_filter refInterval maxReads rows (fun _ => 0) [] k
  have h0 : ((process_records_rows rows refInterval maxReads).filter
      (fun r => decide (recKey r = k)) =
    ((rows.map (resolveRow refInterval)).filter
      (fun r => decide (recKey r = k))).take maxReads) := by
    unfold process_records_rows
    simpa using h
  refine ⟨h0, fun hgt => ?_⟩
  rw [h0, List.length_take]
  omega

theorem C6_witness :
    (2 < ((exRows.map (resolveRow 1000)).filter
        (fun r => decide (recKey r = ("BC1", "g1")))).length) ∧
    ((process_records_rows exRows 1000 2).filter
        (fun r => decide (recKey r = ("BC1", "g1")))).length = 2 ∧
    (process_records_rows exRows 1000 2).filter
        (fun r => decide (recKey r = ("BC1", "g1"))) =
      [⟨"r1", "g1", "t1", "BC1", "U1"⟩, ⟨"r2", "g1", "t2", "BC1", "U2"⟩] :=
  ⟨by decide, (C6_cap exRows 1000 2 ("BC1", "g1")).2 (by decide), by decide⟩

/-- C7: evaluation at the failing input.  Read `r1` is present in the gene
table and the tag table but absent from the transcript table; the inner
merge drops it, so no record for `r1` exists and it is never tagged with the
`"-"` sentinel (which would require a surviving record). -/
theorem C7_missing_transcript_dropped :
    (tblGet [("r1", "gene1")] "r1").isSome = true ∧
    (tblGet c7tags "r1").isSome = true ∧
    tblGet ([] : List (String × String)) "r1" = none ∧
    mergeFrames [("r1", "gene1")] [] c7tags = [] ∧
    process_records_rows (mergeFrames [("r1", "gene1")] [] c7tags) 1000 20000 = [] := by
  refine ⟨by decide, by decide, rfl, by decide, by decide⟩

/-- C8: evaluation at the failing input.  With no (gene, cell) groups the
batch list is empty, no results come back from the pool, and the fallback
frame lacks the `transcript` column, so the tail of `process_records` raises
KeyError "transcript" at `to_dict()["transcript"]` instead of yielding an
empty result (the drop, the set_index and the `umi_corr` and `gene` lookups
all succeed first). -/
theorem C8_empty_batch_raises :
    chunks ([] : List String) 50 = [] ∧
    processTail [] = Except.error "transcript" ∧
    (∀ f : Frame, f.cols = groupbyFrameCols → processTail [f] = Except.ok ()) := by
  refine ⟨by simp [chunks], rfl, ?_⟩
  intro f hf
  unfold processTail
  simp only [List.length_cons, Nat.zero_lt_succ, if_pos]
  rfl

theorem C8_witness :
    processTail [⟨groupbyFrameCols, []⟩] = Except.ok () :=
  (C8_empty_batch_raises).2.2 ⟨groupbyFrameCols, []⟩ rfl

/-- C10: when the alignment midpoint is an exact multiple of the interval
size, the synthesised region label is degenerate — its interval start equals
its interval end at the midpoint itself; otherwise the label spans one full
interval of the configured width. -/
theorem C10_region_name (chrom : String) (s e r : Nat) (hr : 0 < r) :
    (r ∣ (s + e) / 2 →
      create_region_name chrom s e r =
        chrom ++ "_" ++ toString ((s + e) / 2) ++ "_" ++
          toString ((s + e) / 2)) ∧
    (¬ r ∣ (s + e) / 2 →
      create_region_name chrom s e r =
        chrom ++ "_" ++ toString ((s + e) / 2 / r * r) ++ "_" ++
          toString ((s + e) / 2 / r * r + r)) := by
  constructor
  · intro hdvd
    obtain ⟨q, hq⟩ := hdvd
    have hq' : (s + e) / 2 = q * r := by rw [hq, Nat.mul_comm]
    have h1 : (s + e) / 2 / r * r = (s + e) / 2 := Nat.div_mul_cancel ⟨q, hq⟩
    have he : (s + e) / 2 + r - 1 = (r - 1) + q * r := by omega
    have hd : ((s + e) / 2 + r - 1) / r = q := by
      rw [he, Nat.add_mul_div_right _ _ hr, Nat.div_eq_of_lt (by omega)]
      omega
    have h2 : ((s + e) / 2 + r - 1) / r * r = (s + e) / 2 := by
      rw [hd, ← hq']
    simp only [create_region_name, h1, h2]
  · intro hdvd
    have hr1 : 1 ≤ (s + e) / 2 % r :=
      Nat.one_le_iff_ne_zero.mpr (fun hh => hdvd (Nat.dvd_of_mod_eq_zero hh))
    have hltr : (s + e) / 2 % r < r := Nat.mod_lt _ hr
    have hsplit : (s + e) / 2 / r * r + (s + e) / 2 % r = (s + e) / 2 := by
      rw [Nat.mul_comm]
      exact Nat.div_add_mod _ _
    have hqr : ((s + e) / 2 / r + 1) * r = (s + e) / 2 / r * r + r := by
      rw [Nat.add_mul, Nat.one_mul]
    have he : (s + e) / 2 + r - 1 =
        ((s + e) / 2 % r - 1) + ((s + e) / 2 / r * r + r) := by omega
    have hd : ((s + e) / 2 + r - 1) / r = (s + e) / 2 / r + 1 := by
      rw [he, ← hqr, Nat.add_mul_div_right _ _ hr, Nat.div_eq_of_lt (by omega)]
      omega
    have h3 : ((s + e) / 2 + r - 1) / r * r = (s + e) / 2 / r * r + r := by
      rw [hd, hqr]
    simp only [create_region_name, h3]

theorem C10_witness :
    (0 : Nat) < 1000 ∧
    create_region_name "chr1" 1900 2100 1000 =
      "chr1" ++ "_" ++ toString ((1900 + 2100) / 2) ++ "_" ++
        toString ((1900 + 2100) / 2) ∧
    create_region_name "chr1" 1900 2100 1000 = "chr1_2000_2000" ∧
    create_region_name "chr1" 1400 1600 1000 = "chr1_1000_2000" :=
  ⟨by decide, (C10_region_name "chr1" 1900 2100 1000 (by decide)).1 (by decide),
    by decide, by decide⟩
